import Mathlib

/-!
Verification development for the posiflora-api MCP server.

The definitions below are a shallow embedding of the TypeScript sources:

* `src/utils.ts` — `openApiTypeToZod` (OpenAPI schema node → zod validator)
  and `mapHttpStatusCodeToMcpError` (HTTP status → MCP error code);
* `src/create-server.ts` — `createPosifloraServer`: resource registration
  (phase R), tool registration (phase O), tool-name sanitisation and
  deduplication, invocation-time argument routing, and result shaping;
* the rate-limited server revision — the `RateLimiter` token bucket.

Modelling conventions:

* JavaScript numbers are modelled as exact rationals (`Rat`); the claims
  under study only exercise values representable exactly.
* JSON values are the inductive `Val`; JS objects are association lists in
  insertion order with last-assignment-wins updates (`objSet`).
* zod's `.describe(...)` annotation never changes which values a validator
  accepts and never changes the class of the zod object, so the annotation
  strings (`title`/`description`/`default`/`example`) are not carried in
  the `Validator` model.  A schema node's `description` field is kept,
  because `$ref` resolution merges it into the resolved node.
* Recursion in `openApiTypeToZod` is not structurally bounded ($ref
  resolution can grow the term), so the embedding `translateF` is driven
  by explicit fuel; a result of `none` for every fuel models divergence
  (the JS stack overflow).  A result of `some (Except.error ())` models a
  thrown JS exception, `some (Except.ok v)` a returned value, where
  `Validator.undefV` stands for a returned JS `undefined`.
* `decodeURIComponent` in the `$ref` path walk and JS regex compilation
  (`new RegExp(schema.pattern)`) are not modelled; both can throw on
  malformed input, which is noted where relevant.
-/

namespace Posiflora

mutual

/-- JSON runtime values.  Mutual with its own list types so that all
recursive functions over values are structural (and kernel-computable). -/
inductive Val where
  | vNull
  | vBool (b : Bool)
  | vNum (q : Rat)
  | vStr (s : String)
  | vArr (items : VArr)
  | vObj (fields : VObj)

inductive VArr where
  | anil
  | acons (v : Val) (tl : VArr)

inductive VObj where
  | onil
  | ocons (k : String) (v : Val) (tl : VObj)

end

/-- The two JSON forms a schema's `exclusiveMinimum`/`exclusiveMaximum`
field can take: a boolean (legacy OpenAPI 3.0) or a number (JSON Schema
2020-12). -/
inductive ExclVal where
  | boolTrue
  | boolFalse
  | num (q : Rat)
  deriving DecidableEq, Repr

mutual

/-- An OpenAPI schema node, with exactly the fields `openApiTypeToZod`
(src/utils.ts lines 5-146) reads.  Mutual with its own list types so that
recursive predicates over schemas are structural.  The annotation-only
fields `title`/`default`/`example` are omitted (they feed `.describe` only
and never influence control flow); `description` is kept because the
`$ref` branch merges it. -/
inductive Schema where
  | mk
    (ref : Option String)
    (description : Option String)
    (oneOf : Option SList)
    (anyOf : Option SList)
    (allOf : Option SList)
    (ty : Option String)
    (enm : Option (List String))
    (format : Option String)
    (minLength : Option Int)
    (maxLength : Option Int)
    (pattern : Option String)
    (minimum : Option Rat)
    (maximum : Option Rat)
    (exclusiveMinimum : Option ExclVal)
    (exclusiveMaximum : Option ExclVal)
    (multipleOf : Option Rat)
    (items : Option Schema)
    (properties : Option PropsList)
    (required : Option (List String))
    (addProps : Option APVal)

inductive SList where
  | nil
  | cons (s : Schema) (tl : SList)

inductive PropsList where
  | nil
  | cons (k : String) (s : Schema) (tl : PropsList)

inductive APVal where
  | apBool (b : Bool)
  | apSchema (s : Schema)

end

/-- The empty schema node `{}` (all fields absent). -/
def sNone : Schema :=
  .mk none none none none none none none none none none
      none none none none none none none none none none

/-- The `description` field of a schema node. -/
def Schema.descriptionOf : Schema → Option String
  | .mk _ d _ _ _ _ _ _ _ _ _ _ _ _ _ _ _ _ _ _ => d

/-- Replace the `description` field of a schema node (the spread
`{ ...current, description: ... }` in the `$ref` branch). -/
def Schema.withDescription : Schema → Option String → Schema
  | .mk r _ o a al t e f mi ma p mn mx em ex mu it pr rq ad, d =>
    .mk r d o a al t e f mi ma p mn mx em ex mu it pr rq ad

/-- The `$ref` field of a schema node. -/
def Schema.refOf : Schema → Option String
  | .mk r _ _ _ _ _ _ _ _ _ _ _ _ _ _ _ _ _ _ _ => r

/-- JS truthiness of an optional string (`undefined` and `""` are falsy). -/
def jsStrTruthy : Option String → Bool
  | some s => s != ""
  | none => false

/-- JS `a || b` on optional strings. -/
def jsOrStr (a b : Option String) : Option String :=
  if jsStrTruthy a then a else b

/-- JS `a || b` where `a` is an optional string and `b` a default string
(used for `operationId || fallback`). -/
def jsOrStrD (a : Option String) (b : String) : String :=
  match a with
  | some s => if s != "" then s else b
  | none => b

/-- Conservative model of `new RegExp(pattern)` compilation (a JS
builtin, utils.ts lines 59-62): a pattern consisting only of plain
literal characters and the always-valid one-character atoms `.`, `^`,
`$` compiles; any pattern using other regex metacharacters is treated as
potentially malformed and modelled as throwing.  This is a sound
under-approximation of the compiler: every accepted pattern is a valid
ECMAScript regular expression, while the rejected ones include the
genuinely malformed patterns such as `"("` (SyntaxError: unterminated
group). -/
def regexOk (p : String) : Bool :=
  p.data.all (fun c => c.isAlphanum || c = ' ' || c = '_' || c = '-' ||
    c = '.' || c = '^' || c = '$' || c = ':' || c = '/' || c = '@' ||
    c = ',' || c = '%')

/-- The root OpenAPI document, modelled as a mapping from resolved
reference-path segment lists to the schema nodes they reach.  The JS code
walks `spec?.[segment]` segment by segment; the model looks the whole
segment list up at once. -/
def Doc := List (List String × Schema)

/-- Split a character list at every `/` (JS `String.prototype.split("/")`). -/
def splitSlashGo (acc : List Char) : List Char → List String
  | [] => [String.mk acc.reverse]
  | c :: rest =>
    if c = '/' then String.mk acc.reverse :: splitSlashGo [] rest
    else splitSlashGo (c :: acc) rest

/-- Replace every occurrence of the nonempty pattern `p :: ps` by `rep`,
left to right without rescanning the replacement (JS global `replace`).
Fuel-driven so the definition is structural; the callers pass enough fuel
for the whole input. -/
def replaceAllGo (p : Char) (ps rep : List Char) : Nat → List Char → List Char
  | _, [] => []
  | 0, l => l
  | Nat.succ f, c :: rest =>
    if (p :: ps).isPrefixOf (c :: rest) then
      rep ++ replaceAllGo p ps rep f ((c :: rest).drop (ps.length + 1))
    else c :: replaceAllGo p ps rep f rest

/-- JS `s.replace(pat, rep)` with a global flag (an empty pattern leaves
the string unchanged; the source only uses nonempty patterns). -/
def jsReplaceAll (s pat rep : String) : String :=
  match pat.data with
  | [] => s
  | p :: ps => String.mk (replaceAllGo p ps rep.data (s.data.length + 1) s.data)

/-- Turn a raw `$ref` string into lookup segments: strip a leading `#/`,
split on `/`, and unescape `~1` → `/` then `~0` → `~` in each segment, in
the order the source applies the replacements.  (`decodeURIComponent` is
not modelled.) -/
def refSegments (r : String) : List String :=
  let stripped :=
    if ['#', '/'].isPrefixOf r.data then String.mk (r.data.drop 2) else r
  (splitSlashGo [] stripped.data).map
    (fun seg => jsReplaceAll (jsReplaceAll seg "~1" "/") "~0" "~")

/-- Resolve a segment list in the document. -/
def resolveRef (doc : Doc) (segs : List String) : Option Schema :=
  match doc with
  | [] => none
  | (k, s) :: rest => if k == segs then some s else resolveRef rest segs

/-- The validator model: one constructor per zod shape `openApiTypeToZod`
can build.  `undefV` stands for the JS `undefined` that the source returns
when a `oneOf`/`anyOf` list is empty (`variants[0]` of an empty array). -/
inductive NumCheck where
  | gt (q : Rat)
  | ge (q : Rat)
  | lt (q : Rat)
  | le (q : Rat)
  | multipleOf (q : Rat)
  deriving DecidableEq, Repr

inductive Validator where
  | anyV
  | undefV
  | unionV (vs : List Validator)
  | strV (minLength maxLength : Option Int) (pattern : Option String)
  | enumV (vals : List String)
  | dateV
  | numV (checks : List NumCheck)
  | boolV
  | arrV (item : Validator)
  | objV (fields : List (String × Validator))
  | recV (val : Validator)
  | optV (v : Validator)

/-- Is this validator a `z.ZodObject` (the `instanceof z.ZodObject` test)? -/
def Validator.isObjV : Validator → Bool
  | .objV _ => true
  | _ => false

/-- Is this validator a `z.ZodOptional`? -/
def Validator.isOptional : Validator → Bool
  | .optV _ => true
  | _ => false

/-- JS-object update `o[k] = v`: overwrite in place if the key exists,
else append. -/
def objSet {α : Type} (l : List (String × α)) (k : String) (v : α) :
    List (String × α) :=
  if l.any (fun kv => kv.1 == k) then
    l.map (fun kv => if kv.1 == k then (k, v) else kv)
  else l ++ [(k, v)]

/-- `Object.assign(a, b)`: assign every entry of `b` into `a` in order. -/
def objAssign {α : Type} (a b : List (String × α)) : List (String × α) :=
  b.foldl (fun acc kv => objSet acc kv.1 kv.2) a

/-- First-match key lookup in a JS-style association list. -/
def lookupKey {α : Type} (l : List (String × α)) (k : String) : Option α :=
  (l.find? (fun kv => kv.1 == k)).map (fun kv => kv.2)

/-- `acc.merge(curr)` on two zod object validators: the later shape's
fields override the earlier's. -/
def mergeTwo (a b : Validator) : Validator :=
  match a, b with
  | .objV fa, .objV fb => .objV (objAssign fa fb)
  | _, _ => a

/-- `variants.reduce((acc, curr) => acc.merge(curr))` over a nonempty list. -/
def mergeObjAll (v : Validator) (rest : List Validator) : Validator :=
  rest.foldl mergeTwo v

/-- `fieldSchema.optional()`: throws (a `TypeError`) when `fieldSchema` is
the JS `undefined`, otherwise wraps in `ZodOptional`. -/
def zodOptional (v : Validator) : Except Unit Validator :=
  match v with
  | .undefV => .error ()
  | _ => .ok (.optV v)

/-- `schema.enum && schema.enum.length > 0`. -/
def enumNonempty : Option (List String) → Bool
  | some l => !l.isEmpty
  | none => false

/-- Outcome of one call to `openApiTypeToZod`: a thrown exception or a
returned value. -/
abbrev TR := Except Unit Validator

/-- Bind for the combined fuel/exception result: out-of-fuel (`none`) and
thrown exceptions propagate, values continue. -/
def tbind {α β : Type} (x : Option (Except Unit α))
    (k : α → Option (Except Unit β)) : Option (Except Unit β) :=
  match x with
  | none => none
  | some (Except.error e) => some (Except.error e)
  | some (Except.ok a) => k a

/-- `schema.oneOf || schema.anyOf` — a present array is truthy even when
empty, so a present (possibly empty) `oneOf` shadows `anyOf`. -/
def jsCompList : Option SList → Option SList → Option SList
  | some l, _ => some l
  | none, a => a

/-- The numeric lower-bound checks, in source order: a present `minimum`
is exclusive exactly when `exclusiveMinimum === true`, else inclusive; an
absent `minimum` with a numeric `exclusiveMinimum` is exclusive at that
number. -/
def numLowerChecks (minim : Option Rat) (exMin : Option ExclVal) :
    List NumCheck :=
  match minim with
  | some m =>
    if exMin = some ExclVal.boolTrue then [NumCheck.gt m]
    else [NumCheck.ge m]
  | none =>
    match exMin with
    | some (ExclVal.num q) => [NumCheck.gt q]
    | _ => []

/-- The numeric upper-bound checks, mirroring `numLowerChecks`. -/
def numUpperChecks (maxim : Option Rat) (exMax : Option ExclVal) :
    List NumCheck :=
  match maxim with
  | some m =>
    if exMax = some ExclVal.boolTrue then [NumCheck.lt m]
    else [NumCheck.le m]
  | none =>
    match exMax with
    | some (ExclVal.num q) => [NumCheck.lt q]
    | _ => []

/-- The `multipleOf` check when present. -/
def numMulChecks (mulOf : Option Rat) : List NumCheck :=
  match mulOf with
  | some q => [NumCheck.multipleOf q]
  | none => []

mutual

/-- Shallow embedding of `openApiTypeToZod(schema, spec)` from
src/utils.ts lines 5-146, driven by fuel (each helper hop consumes one
unit).  `none` means the computation did not complete within the given
fuel; a schema on which the result is `none` for every fuel diverges (the
JS stack overflow).  `some (Except.error ())` models a thrown exception,
`some (Except.ok v)` a returned value, where `Validator.undefV` stands
for a returned JS `undefined`.  The branch structure follows the source:
absent node → `z.any()`; truthy `$ref` → resolve and recurse, with the
description merged (unresolvable → `z.any()`); `oneOf || anyOf` → union;
`allOf` → merge; otherwise a switch on `type`.  The body is spread over
small helper functions, one JS construct each. -/
def translateF : Nat → Doc → Option Schema → Option TR
  | 0, _, _ => none
  | Nat.succ _, _, none => some (Except.ok Validator.anyV)
  | Nat.succ fuel, doc, some s => translateSchema fuel doc s

/-- Dispatcher for a present schema node: a truthy `$ref` short-circuits,
otherwise composition keywords and the `type` switch run. -/
def translateSchema : Nat → Doc → Schema → Option TR
  | 0, _, _ => none
  | Nat.succ fuel, doc, Schema.mk ref desc oneOf anyOf allOf ty enm fmt
      minL maxL pat minim maxim exMin exMax mulOf items props req addP =>
    if jsStrTruthy ref then
      translateRef fuel doc (ref.getD "") desc
    else
      translateComp fuel doc oneOf anyOf allOf ty enm fmt minL maxL pat
        minim maxim exMin exMax mulOf items props req addP

/-- The `$ref` branch: resolve the reference path in the document and
recurse on the resolved node with the original description merged in;
an unresolvable reference degrades to `z.any()`. -/
def translateRef : Nat → Doc → String → Option String → Option TR
  | 0, _, _, _ => none
  | Nat.succ fuel, doc, r, desc =>
    translateRefGo fuel doc (resolveRef doc (refSegments r)) desc

/-- Continuation of the `$ref` branch on the resolution result. -/
def translateRefGo : Nat → Doc → Option Schema → Option String → Option TR
  | 0, _, _, _ => none
  | Nat.succ fuel, doc, some cur, desc =>
    translateF fuel doc
      (some (cur.withDescription (jsOrStr cur.descriptionOf desc)))
  | Nat.succ _, _, none, _ => some (Except.ok Validator.anyV)

/-- Composition dispatch: `oneOf || anyOf` first, then `allOf`, then the
`type` switch. -/
def translateComp : Nat → Doc → Option SList → Option SList →
    Option SList → Option String → Option (List String) → Option String →
    Option Int → Option Int → Option String → Option Rat → Option Rat →
    Option ExclVal → Option ExclVal → Option Rat → Option Schema →
    Option PropsList → Option (List String) → Option APVal → Option TR
  | 0, _, _, _, _, _, _, _, _, _, _, _, _, _, _, _, _, _, _, _ => none
  | Nat.succ fuel, doc, oneOf, anyOf, allOf, ty, enm, fmt, minL, maxL,
      pat, minim, maxim, exMin, exMax, mulOf, items, props, req, addP =>
    match jsCompList oneOf anyOf with
    | some l => translateUnion fuel doc l
    | none =>
      match allOf with
      | some l => translateAllOf fuel doc l
      | none =>
        translateByTy fuel doc ty enm fmt minL maxL pat minim maxim exMin
          exMax mulOf items props req addP

/-- The `oneOf`/`anyOf` branch: translate every variant; more than one
variant gives `z.union(variants)`, exactly one gives that variant, zero
gives `variants[0]`, the JS `undefined`. -/
def translateUnion : Nat → Doc → SList → Option TR
  | 0, _, _ => none
  | Nat.succ fuel, doc, l =>
    tbind (translateVariants fuel doc l) (fun vs =>
      match vs with
      | [] => some (Except.ok Validator.undefV)
      | [v] => some (Except.ok v)
      | _ :: _ :: _ => some (Except.ok (Validator.unionV vs)))

/-- The `allOf` branch: translate every member; if all are object shapes,
merge them left to right, otherwise fall back to the first member.
`[].reduce` on an empty member list throws. -/
def translateAllOf : Nat → Doc → SList → Option TR
  | 0, _, _ => none
  | Nat.succ fuel, doc, l =>
    tbind (translateVariants fuel doc l) (fun vs =>
      match vs with
      | [] => some (Except.error ())
      | v :: rest =>
        if (v :: rest).all Validator.isObjV then
          some (Except.ok (mergeObjAll v rest))
        else some (Except.ok v))

/-- The `switch (schema.type)` of the source: string (enum / date formats
/ bounded string), integer and number (bound and divisibility checks in
source order), boolean, array (`items` defaulting to `{}`), object, and
the permissive default for unrecognized or missing types. -/
def translateByTy : Nat → Doc → Option String → Option (List String) →
    Option String → Option Int → Option Int → Option String → Option Rat →
    Option Rat → Option ExclVal → Option ExclVal → Option Rat →
    Option Schema → Option PropsList → Option (List String) →
    Option APVal → Option TR
  | 0, _, _, _, _, _, _, _, _, _, _, _, _, _, _, _, _ => none
  | Nat.succ fuel, doc, ty, enm, fmt, minL, maxL, pat, minim, maxim,
      exMin, exMax, mulOf, items, props, req, addP =>
    match ty with
    | some "string" =>
      if enumNonempty enm then
        some (Except.ok (Validator.enumV (enm.getD [])))
      else if fmt == some "date-time" || fmt == some "date" then
        some (Except.ok Validator.dateV)
      else if jsStrTruthy pat && !regexOk (pat.getD "") then
        some (Except.error ())
      else
        some (Except.ok (Validator.strV minL maxL pat))
    | some "integer" | some "number" =>
      some (Except.ok (Validator.numV
        (numLowerChecks minim exMin ++ numUpperChecks maxim exMax ++
          numMulChecks mulOf)))
    | some "boolean" => some (Except.ok Validator.boolV)
    | some "array" =>
      tbind (translateF fuel doc (some (items.getD sNone))) (fun v =>
        some (Except.ok (Validator.arrV v)))
    | some "object" => translateObj fuel doc props req addP
    | _ => some (Except.ok Validator.anyV)

/-- The object case: a present `properties` map wins, otherwise
`additionalProperties` decides. -/
def translateObj : Nat → Doc → Option PropsList → Option (List String) →
    Option APVal → Option TR
  | 0, _, _, _, _ => none
  | Nat.succ fuel, doc, props, req, addP =>
    match props with
    | some pl =>
      tbind (translateProps fuel doc pl (req.getD [])) (fun flds =>
        some (Except.ok (Validator.objV flds)))
    | none => translateAddP fuel doc addP

/-- The `additionalProperties` case: `true` and a schema give a typed
record, everything else (absent or `false`) the dynamic-object record. -/
def translateAddP : Nat → Doc → Option APVal → Option TR
  | 0, _, _ => none
  | Nat.succ fuel, doc, addP =>
    match addP with
    | some (APVal.apBool true) =>
      tbind (translateF fuel doc (some sNone)) (fun v =>
        some (Except.ok (Validator.recV v)))
    | some (APVal.apSchema sub) =>
      tbind (translateF fuel doc (some sub)) (fun v =>
        some (Except.ok (Validator.recV v)))
    | _ => some (Except.ok (Validator.recV Validator.anyV))

/-- Translate each member of a composition list in order (a thrown
exception aborts the remaining members, as in the JS `map`). -/
def translateVariants : Nat → Doc → SList →
    Option (Except Unit (List Validator))
  | 0, _, _ => none
  | Nat.succ _, _, SList.nil => some (Except.ok [])
  | Nat.succ fuel, doc, SList.cons s tl =>
    tbind (translateF fuel doc (some s)) (fun v =>
      tbind (translateVariants fuel doc tl) (fun vs =>
        some (Except.ok (v :: vs))))

/-- The `properties` loop of the object case: translate each property and
wrap it `.optional()` unless its key is in `required` (calling
`.optional()` on a JS `undefined` throws). -/
def translateProps : Nat → Doc → PropsList → List String →
    Option (Except Unit (List (String × Validator)))
  | 0, _, _, _ => none
  | Nat.succ _, _, PropsList.nil, _ => some (Except.ok [])
  | Nat.succ fuel, doc, PropsList.cons k s tl, req =>
    tbind (translateF fuel doc (some s)) (fun v =>
      tbind (some (if req.contains k then Except.ok v else zodOptional v))
        (fun fv =>
          tbind (translateProps fuel doc tl req) (fun rest =>
            some (Except.ok ((k, fv) :: rest)))))

end

example :
    translateF 5 [] (some sNone) = some (Except.ok Validator.anyV) := rfl

example :
    translateF 5 []
      (some (Schema.mk none none none none none (some "boolean") none none
        none none none none none none none none none none none none)) =
    some (Except.ok Validator.boolV) := rfl

/-- MCP error codes (`ErrorCode` from the protocol SDK): ParseError -32700,
InvalidRequest -32600, MethodNotFound -32601, InvalidParams -32602,
InternalError -32603. -/
inductive ErrorCode where
  | parseError
  | invalidRequest
  | methodNotFound
  | invalidParams
  | internalError
  deriving DecidableEq, Repr

/-- Shallow embedding of `mapHttpStatusCodeToMcpError` from src/utils.ts
lines 157-164: a first-match-wins chain of comparisons on the numeric
status. -/
def mapHttpStatusCodeToMcpError (status : Int) : ErrorCode :=
  if status = 400 then ErrorCode.invalidParams
  else if status = 401 ∨ status = 403 then ErrorCode.invalidRequest
  else if status = 404 then ErrorCode.invalidParams
  else if status = 405 then ErrorCode.methodNotFound
  else if 500 ≤ status then ErrorCode.internalError
  else ErrorCode.internalError

/-- Is an `SList` empty? -/
def SList.isNil : SList → Bool
  | .nil => true
  | .cons _ _ => false

/-- A tame `pattern` field: absent, empty (JS-falsy, so the source never
compiles it), or accepted by the regex-compilation model — on such
fields `new RegExp(schema.pattern)` does not throw. -/
inductive TamePat : Option String → Prop where
  | mkP : ∀ pat : Option String,
      (jsStrTruthy pat = true → regexOk (pat.getD "") = true) →
      TamePat pat

mutual

/-- A schema node is tame when it contains no `$ref` anywhere, every
`oneOf`/`anyOf`/`allOf` list present is nonempty, and every present
nonempty `pattern` compiles in the regex model.  On tame nodes the
source recursion is driven purely by structure and never throws. -/
inductive TameS : Schema → Prop where
  | mk : ∀ (desc : Option String) (oneOf anyOf allOf : Option SList)
      (ty : Option String) (enm : Option (List String))
      (fmt : Option String) (minL maxL : Option Int) (pat : Option String)
      (minim maxim : Option Rat) (exMin exMax : Option ExclVal)
      (mulOf : Option Rat) (items : Option Schema)
      (props : Option PropsList) (req : Option (List String))
      (addP : Option APVal),
      TameComp oneOf → TameComp anyOf → TameComp allOf →
      TameItems items → TamePropsO props → TameAddP addP → TamePat pat →
      TameS (Schema.mk none desc oneOf anyOf allOf ty enm fmt minL maxL
        pat minim maxim exMin exMax mulOf items props req addP)

/-- A tame composition field: absent, or a present nonempty tame list. -/
inductive TameComp : Option SList → Prop where
  | noneC : TameComp none
  | consC : ∀ (s : Schema) (tl : SList), TameL (SList.cons s tl) →
      TameComp (some (SList.cons s tl))

/-- A tame `items` field. -/
inductive TameItems : Option Schema → Prop where
  | noneC : TameItems none
  | someC : ∀ s : Schema, TameS s → TameItems (some s)

/-- A tame `properties` field. -/
inductive TamePropsO : Option PropsList → Prop where
  | noneC : TamePropsO none
  | someC : ∀ pl : PropsList, TameP pl → TamePropsO (some pl)

/-- A tame `additionalProperties` field. -/
inductive TameAddP : Option APVal → Prop where
  | noneC : TameAddP none
  | boolC : ∀ b : Bool, TameAddP (some (APVal.apBool b))
  | schemaC : ∀ s : Schema, TameS s → TameAddP (some (APVal.apSchema s))

/-- Every member of the list is tame. -/
inductive TameL : SList → Prop where
  | nil : TameL SList.nil
  | cons : ∀ (s : Schema) (tl : SList), TameS s → TameL tl →
      TameL (SList.cons s tl)

/-- Every property value of the list is tame. -/
inductive TameP : PropsList → Prop where
  | nil : TameP PropsList.nil
  | cons : ∀ (k : String) (s : Schema) (tl : PropsList), TameS s →
      TameP tl → TameP (PropsList.cons k s tl)

end

lemma mergeObjAll_not_optional (rest : List Validator) (v : Validator)
    (h : v.isOptional = false) : (mergeObjAll v rest).isOptional = false := by
  induction rest generalizing v with
  | nil => exact h
  | cons b tl ih =>
    have hstep : (mergeTwo v b).isOptional = false := by
      cases v <;> cases b <;> simp_all [mergeTwo, Validator.isOptional]
    simpa [mergeObjAll, List.foldl] using ih (mergeTwo v b) hstep

/-- Claim C2: the HTTP-status classifier is a total function sending 400
and 404 to InvalidParams (ValidationFailure), 401 and 403 to
InvalidRequest (AuthFailure), 405 to MethodNotFound (MethodUnsupported),
every status at least 500 to InternalError (UpstreamFailure), and every
other input to InternalError as well, with earlier rules taking
priority. -/
theorem http_status_classifier_spec (s : Int) :
    (mapHttpStatusCodeToMcpError s = ErrorCode.invalidParams ↔
      (s = 400 ∨ s = 404)) ∧
    (mapHttpStatusCodeToMcpError s = ErrorCode.invalidRequest ↔
      (s = 401 ∨ s = 403)) ∧
    (mapHttpStatusCodeToMcpError s = ErrorCode.methodNotFound ↔ s = 405) ∧
    (500 ≤ s → mapHttpStatusCodeToMcpError s = ErrorCode.internalError) ∧
    (s ≠ 400 → s ≠ 401 → s ≠ 403 → s ≠ 404 → s ≠ 405 →
      mapHttpStatusCodeToMcpError s = ErrorCode.internalError) := by
  unfold mapHttpStatusCodeToMcpError
  split_ifs <;> refine ⟨?_, ?_, ?_, ?_, ?_⟩ <;> simp_all <;> omega

/-- Witness for C2 at the boundary status 500 and the unmapped status
418. -/
theorem http_status_classifier_spec_witness :
    mapHttpStatusCodeToMcpError 500 = ErrorCode.internalError ∧
    mapHttpStatusCodeToMcpError 418 = ErrorCode.internalError :=
  ⟨(http_status_classifier_spec 500).2.2.2.1 (by decide),
   (http_status_classifier_spec 418).2.2.2.2 (by decide) (by decide)
     (by decide) (by decide) (by decide)⟩

/-- One zod numeric check against a number (`z.number().gt/min/lt/max/
multipleOf`).  zod's `multipleOf` accepts exactly when the float-safe
remainder is zero, i.e. when the quotient is an integer; a zero step
yields `NaN % 0`, which rejects everything. -/
def checkNum (q : Rat) : NumCheck → Bool
  | NumCheck.gt b => b < q
  | NumCheck.ge b => b ≤ q
  | NumCheck.lt b => q < b
  | NumCheck.le b => q ≤ b
  | NumCheck.multipleOf m => if m = 0 then false else (q / m).den = 1

/-- A number passes a numeric validator exactly when it passes every
check (zod runs all checks and collects issues). -/
def numAccepts (checks : List NumCheck) (q : Rat) : Bool :=
  checks.all (checkNum q)

/-- A schema node `{ type: "integer", ... }` with only the numeric
constraint fields set. -/
def numSchema (minim maxim : Option Rat) (exMin exMax : Option ExclVal)
    (mulOf : Option Rat) : Schema :=
  .mk none none none none none (some "integer") none none none none none
      minim maxim exMin exMax mulOf none none none none

lemma translate_numeric (f : Nat) (doc : Doc) (minim maxim : Option Rat)
    (exMin exMax : Option ExclVal) (mulOf : Option Rat) :
    translateF (f + 4) doc (some (numSchema minim maxim exMin exMax mulOf)) =
    some (Except.ok (Validator.numV
      (numLowerChecks minim exMin ++ numUpperChecks maxim exMax ++
        numMulChecks mulOf))) := rfl

/-- Claim C9: numeric schema translation applies inclusive bounds for
`minimum`/`maximum` unless the corresponding exclusive field is the
boolean `true` (legacy form) or itself a number (modern form, exclusive
at that value), and `multipleOf` adds a divisibility constraint; in
particular `{type:"integer", minimum:0, exclusiveMaximum:true,
maximum:10}` accepts every integer in `0..9` and rejects `10` and `-1`. -/
theorem numeric_schema_translation_spec :
    (∀ (f : Nat) (doc : Doc) (a b n : Rat) (checks : List NumCheck),
      translateF (f + 4) doc
          (some (numSchema (some a) (some b) none none none)) =
        some (Except.ok (Validator.numV checks)) →
      (numAccepts checks n = true ↔ (a ≤ n ∧ n ≤ b))) ∧
    (∀ (f : Nat) (doc : Doc) (a b n : Rat) (checks : List NumCheck),
      translateF (f + 4) doc (some (numSchema (some a) (some b)
          (some ExclVal.boolTrue) (some ExclVal.boolTrue) none)) =
        some (Except.ok (Validator.numV checks)) →
      (numAccepts checks n = true ↔ (a < n ∧ n < b))) ∧
    (∀ (f : Nat) (doc : Doc) (a b n : Rat) (checks : List NumCheck),
      translateF (f + 4) doc (some (numSchema none none
          (some (ExclVal.num a)) (some (ExclVal.num b)) none)) =
        some (Except.ok (Validator.numV checks)) →
      (numAccepts checks n = true ↔ (a < n ∧ n < b))) ∧
    (∀ (f : Nat) (doc : Doc) (m n : Rat) (checks : List NumCheck),
      m ≠ 0 →
      translateF (f + 4) doc
          (some (numSchema none none none none (some m))) =
        some (Except.ok (Validator.numV checks)) →
      (numAccepts checks n = true ↔ ∃ k : Int, n = (k : Rat) * m)) ∧
    (∀ (f : Nat) (doc : Doc) (checks : List NumCheck),
      translateF (f + 4) doc (some (numSchema (some 0) (some 10) none
          (some ExclVal.boolTrue) none)) =
        some (Except.ok (Validator.numV checks)) →
      (∀ k : Int, 0 ≤ k → k ≤ 9 → numAccepts checks (k : Rat) = true) ∧
      numAccepts checks 10 = false ∧
      numAccepts checks (-1) = false) := by
  refine ⟨?_, ?_, ?_, ?_, ?_⟩
  · intro f doc a b n checks h
    rw [translate_numeric] at h
    simp only [Option.some.injEq, Except.ok.injEq, Validator.numV.injEq]
      at h
    subst h
    simp [numAccepts, numLowerChecks, numUpperChecks, numMulChecks,
      checkNum]
  · intro f doc a b n checks h
    rw [translate_numeric] at h
    simp only [Option.some.injEq, Except.ok.injEq, Validator.numV.injEq]
      at h
    subst h
    simp [numAccepts, numLowerChecks, numUpperChecks, numMulChecks,
      checkNum]
  · intro f doc a b n checks h
    rw [translate_numeric] at h
    simp only [Option.some.injEq, Except.ok.injEq, Validator.numV.injEq]
      at h
    subst h
    simp [numAccepts, numLowerChecks, numUpperChecks, numMulChecks,
      checkNum]
  · intro f doc m n checks hm h
    rw [translate_numeric] at h
    simp only [Option.some.injEq, Except.ok.injEq, Validator.numV.injEq]
      at h
    subst h
    simp only [numAccepts, numLowerChecks, numUpperChecks, numMulChecks,
      List.nil_append, List.all_cons, List.all_nil, Bool.and_true,
      checkNum, if_neg hm]
    constructor
    · intro hden
      refine ⟨(n / m).num, ?_⟩
      have h1 : ((n / m).num : Rat) = n / m :=
        (Rat.den_eq_one_iff _).mp (by simpa using hden)
      rw [h1]
      field_simp
    · rintro ⟨k, rfl⟩
      have : (k : Rat) * m / m = (k : Rat) := by field_simp
      rw [this]
      simp [Rat.den_intCast]
  · intro f doc checks h
    rw [translate_numeric] at h
    simp only [Option.some.injEq, Except.ok.injEq, Validator.numV.injEq]
      at h
    subst h
    refine ⟨?_, by decide, by decide⟩
    intro k hk0 hk9
    have h0 : (0 : Rat) ≤ (k : Rat) := by exact_mod_cast hk0
    have h10 : (k : Rat) < 10 := by
      have hk : k < 10 := by omega
      exact_mod_cast hk
    simp [numAccepts, numLowerChecks, numUpperChecks, numMulChecks,
      checkNum, h0, h10]

/-- Witness for C9 at the claim's example schema: the translated checks
accept `5` and reject `10`. -/
theorem numeric_schema_translation_spec_witness :
    (numAccepts (numLowerChecks (some 0) none ++
        numUpperChecks (some 10) (some ExclVal.boolTrue) ++
        numMulChecks none) ((5 : Int) : Rat) = true) ∧
    (numAccepts (numLowerChecks (some 0) none ++
        numUpperChecks (some 10) (some ExclVal.boolTrue) ++
        numMulChecks none) 10 = false) := by
  refine ⟨?_, ?_⟩
  · exact (numeric_schema_translation_spec.2.2.2.2 0 [] _ rfl).1 5
      (by decide) (by decide)
  · exact (numeric_schema_translation_spec.2.2.2.2 0 [] _ rfl).2.1

lemma tbind_eq_ok {α β : Type} {x : Option (Except Unit α)}
    {k : α → Option (Except Unit β)} {b : β}
    (h : tbind x k = some (Except.ok b)) :
    ∃ a, x = some (Except.ok a) ∧ k a = some (Except.ok b) := by
  match x with
  | none => exact absurd h (by simp [tbind])
  | some (Except.error e) => exact absurd h (by simp [tbind])
  | some (Except.ok a) => exact ⟨a, rfl, h⟩

set_option maxHeartbeats 1000000 in
/-- The translation never returns a `ZodOptional` at top level: only the
object-property and parameter wrappers add `.optional()`. -/
lemma translate_no_top_optional_aux (fuel : Nat) :
    (∀ (doc : Doc) (s : Option Schema) (v : Validator),
      translateF fuel doc s = some (Except.ok v) → v.isOptional = false) ∧
    (∀ (doc : Doc) (s : Schema) (v : Validator),
      translateSchema fuel doc s = some (Except.ok v) →
      v.isOptional = false) ∧
    (∀ (doc : Doc) (r : String) (d : Option String) (v : Validator),
      translateRef fuel doc r d = some (Except.ok v) →
      v.isOptional = false) ∧
    (∀ (doc : Doc) (cur : Option Schema) (d : Option String)
        (v : Validator),
      translateRefGo fuel doc cur d = some (Except.ok v) →
      v.isOptional = false) ∧
    (∀ (doc : Doc) (oneOf anyOf allOf : Option SList) (ty : Option String)
        (enm : Option (List String)) (fmt : Option String)
        (minL maxL : Option Int) (pat : Option String)
        (minim maxim : Option Rat) (exMin exMax : Option ExclVal)
        (mulOf : Option Rat) (items : Option Schema)
        (props : Option PropsList) (req : Option (List String))
        (addP : Option APVal) (v : Validator),
      translateComp fuel doc oneOf anyOf allOf ty enm fmt minL maxL pat
        minim maxim exMin exMax mulOf items props req addP =
        some (Except.ok v) → v.isOptional = false) ∧
    (∀ (doc : Doc) (l : SList) (v : Validator),
      translateUnion fuel doc l = some (Except.ok v) →
      v.isOptional = false) ∧
    (∀ (doc : Doc) (l : SList) (v : Validator),
      translateAllOf fuel doc l = some (Except.ok v) →
      v.isOptional = false) ∧
    (∀ (doc : Doc) (ty : Option String) (enm : Option (List String))
        (fmt : Option String) (minL maxL : Option Int) (pat : Option String)
        (minim maxim : Option Rat) (exMin exMax : Option ExclVal)
        (mulOf : Option Rat) (items : Option Schema)
        (props : Option PropsList) (req : Option (List String))
        (addP : Option APVal) (v : Validator),
      translateByTy fuel doc ty enm fmt minL maxL pat minim maxim exMin
        exMax mulOf items props req addP = some (Except.ok v) →
      v.isOptional = false) ∧
    (∀ (doc : Doc) (props : Option PropsList) (req : Option (List String))
        (addP : Option APVal) (v : Validator),
      translateObj fuel doc props req addP = some (Except.ok v) →
      v.isOptional = false) ∧
    (∀ (doc : Doc) (addP : Option APVal) (v : Validator),
      translateAddP fuel doc addP = some (Except.ok v) →
      v.isOptional = false) ∧
    (∀ (doc : Doc) (l : SList) (vs : List Validator),
      translateVariants fuel doc l = some (Except.ok vs) →
      ∀ v ∈ vs, v.isOptional = false) := by
  induction fuel with
  | zero =>
    refine ⟨?_, ?_, ?_, ?_, ?_, ?_, ?_, ?_, ?_, ?_, ?_⟩
    · intro doc s v h
      rw [show translateF 0 doc s = none from rfl] at h
      exact Option.noConfusion h
    · intro doc s v h
      rw [show translateSchema 0 doc s = none from rfl] at h
      exact Option.noConfusion h
    · intro doc r d v h
      rw [show translateRef 0 doc r d = none from rfl] at h
      exact Option.noConfusion h
    · intro doc cur d v h
      rw [show translateRefGo 0 doc cur d = none from rfl] at h
      exact Option.noConfusion h
    · intro doc oneOf anyOf allOf ty enm fmt minL maxL pat minim maxim
        exMin exMax mulOf items props req addP v h
      rw [show translateComp 0 doc oneOf anyOf allOf ty enm fmt minL maxL
        pat minim maxim exMin exMax mulOf items props req addP = none
        from rfl] at h
      exact Option.noConfusion h
    · intro doc l v h
      rw [show translateUnion 0 doc l = none from rfl] at h
      exact Option.noConfusion h
    · intro doc l v h
      rw [show translateAllOf 0 doc l = none from rfl] at h
      exact Option.noConfusion h
    · intro doc ty enm fmt minL maxL pat minim maxim exMin exMax mulOf
        items props req addP v h
      rw [show translateByTy 0 doc ty enm fmt minL maxL pat minim maxim
        exMin exMax mulOf items props req addP = none from rfl] at h
      exact Option.noConfusion h
    · intro doc props req addP v h
      rw [show translateObj 0 doc props req addP = none from rfl] at h
      exact Option.noConfusion h
    · intro doc addP v h
      rw [show translateAddP 0 doc addP = none from rfl] at h
      exact Option.noConfusion h
    · intro doc l vs h
      rw [show translateVariants 0 doc l = none from rfl] at h
      exact Option.noConfusion h
  | succ n ih =>
    obtain ⟨ihF, ihS, ihR, ihG, ihC, ihU, ihA, ihT, ihO, ihD, ihV⟩ := ih
    refine ⟨?_, ?_, ?_, ?_, ?_, ?_, ?_, ?_, ?_, ?_, ?_⟩
    · -- translateF
      intro doc s v h
      match s with
      | none =>
        rw [show translateF (n + 1) doc none =
          some (Except.ok Validator.anyV) from rfl] at h
        simp only [Option.some.injEq, Except.ok.injEq] at h
        subst h
        rfl
      | some s0 => exact ihS doc s0 v h
    · -- translateSchema
      intro doc s v h
      match s with
      | Schema.mk ref desc oneOf anyOf allOf ty enm fmt minL maxL pat
          minim maxim exMin exMax mulOf items props req addP =>
        unfold translateSchema at h
        by_cases htr : jsStrTruthy ref = true
        · rw [if_pos htr] at h
          exact ihR doc (ref.getD "") desc v h
        · rw [if_neg htr] at h
          exact ihC doc oneOf anyOf allOf ty enm fmt minL maxL pat minim
            maxim exMin exMax mulOf items props req addP v h
    · -- translateRef
      intro doc r d v h
      replace h : translateRefGo n doc (resolveRef doc (refSegments r)) d =
        some (Except.ok v) := h
      exact ihG doc (resolveRef doc (refSegments r)) d v h
    · -- translateRefGo
      intro doc cur d v h
      match cur with
      | some cur0 =>
        replace h : translateF n doc
          (some (cur0.withDescription (jsOrStr cur0.descriptionOf d))) =
          some (Except.ok v) := h
        exact ihF doc _ v h
      | none =>
        rw [show translateRefGo (n + 1) doc none d =
          some (Except.ok Validator.anyV) from rfl] at h
        simp only [Option.some.injEq, Except.ok.injEq] at h
        subst h
        rfl
    · -- translateComp
      intro doc oneOf anyOf allOf ty enm fmt minL maxL pat minim maxim
        exMin exMax mulOf items props req addP v h
      cases oneOf with
      | some l =>
        replace h : translateUnion n doc l = some (Except.ok v) := h
        exact ihU doc l v h
      | none =>
        cases anyOf with
        | some l =>
          replace h : translateUnion n doc l = some (Except.ok v) := h
          exact ihU doc l v h
        | none =>
          cases allOf with
          | some l =>
            replace h : translateAllOf n doc l = some (Except.ok v) := h
            exact ihA doc l v h
          | none =>
            replace h : translateByTy n doc ty enm fmt minL maxL pat minim
              maxim exMin exMax mulOf items props req addP =
              some (Except.ok v) := h
            exact ihT doc ty enm fmt minL maxL pat minim maxim exMin exMax
              mulOf items props req addP v h
    · -- translateUnion
      intro doc l v h
      unfold translateUnion at h
      obtain ⟨vs, hvs, hk⟩ := tbind_eq_ok h
      match vs with
      | [] =>
        simp only [Option.some.injEq, Except.ok.injEq] at hk
        subst hk
        rfl
      | [v0] =>
        simp only [Option.some.injEq, Except.ok.injEq] at hk
        subst hk
        exact ihV doc l [v0] hvs v0 (by simp)
      | v0 :: v1 :: rest =>
        simp only [Option.some.injEq, Except.ok.injEq] at hk
        subst hk
        rfl
    · -- translateAllOf
      intro doc l v h
      unfold translateAllOf at h
      obtain ⟨vs, hvs, hk⟩ := tbind_eq_ok h
      match vs with
      | [] => simp at hk
      | v0 :: rest =>
        revert hk
        simp only []
        split
        · intro hk
          simp only [Option.some.injEq, Except.ok.injEq] at hk
          subst hk
          exact mergeObjAll_not_optional rest v0
            (ihV doc l (v0 :: rest) hvs v0 (by simp))
        · intro hk
          simp only [Option.some.injEq, Except.ok.injEq] at hk
          subst hk
          exact ihV doc l (v0 :: rest) hvs v0 (by simp)
    · -- translateByTy
      intro doc ty enm fmt minL maxL pat minim maxim exMin exMax mulOf
        items props req addP v h
      unfold translateByTy at h
      revert h
      split
      · -- string
        split
        · intro h
          simp only [Option.some.injEq, Except.ok.injEq] at h
          subst h; rfl
        · split
          · intro h
            simp only [Option.some.injEq, Except.ok.injEq] at h
            subst h; rfl
          · split
            · intro h
              exact Except.noConfusion (Option.some.inj h)
            · intro h
              simp only [Option.some.injEq, Except.ok.injEq] at h
              subst h; rfl
      · intro h
        simp only [Option.some.injEq, Except.ok.injEq] at h
        subst h; rfl
      · intro h
        simp only [Option.some.injEq, Except.ok.injEq] at h
        subst h; rfl
      · intro h
        simp only [Option.some.injEq, Except.ok.injEq] at h
        subst h; rfl
      · intro h
        obtain ⟨a, ha, hk⟩ := tbind_eq_ok h
        simp only [Option.some.injEq, Except.ok.injEq] at hk
        subst hk; rfl
      · intro h
        exact ihO doc props req addP v h
      · intro h
        simp only [Option.some.injEq, Except.ok.injEq] at h
        subst h; rfl
    · -- translateObj
      intro doc props req addP v h
      unfold translateObj at h
      revert h
      split
      · intro h
        obtain ⟨a, ha, hk⟩ := tbind_eq_ok h
        simp only [Option.some.injEq, Except.ok.injEq] at hk
        subst hk; rfl
      · intro h
        exact ihD doc addP v h
    · -- translateAddP
      intro doc addP v h
      unfold translateAddP at h
      revert h
      split
      · intro h
        obtain ⟨a, ha, hk⟩ := tbind_eq_ok h
        simp only [Option.some.injEq, Except.ok.injEq] at hk
        subst hk; rfl
      · intro h
        obtain ⟨a, ha, hk⟩ := tbind_eq_ok h
        simp only [Option.some.injEq, Except.ok.injEq] at hk
        subst hk; rfl
      · intro h
        simp only [Option.some.injEq, Except.ok.injEq] at h
        subst h; rfl
    · -- translateVariants
      intro doc l vs h w hw
      match l with
      | SList.nil =>
        rw [show translateVariants (n + 1) doc SList.nil =
          some (Except.ok ([] : List Validator)) from rfl] at h
        simp only [Option.some.injEq, Except.ok.injEq] at h
        subst h
        simp at hw
      | SList.cons s tl =>
        unfold translateVariants at h
        obtain ⟨a, ha, hk⟩ := tbind_eq_ok h
        obtain ⟨as, has, hk2⟩ := tbind_eq_ok hk
        simp only [Option.some.injEq, Except.ok.injEq] at hk2
        subst hk2
        rcases List.mem_cons.mp hw with hww | hww
        · subst hww
          exact ihF doc (some s) w ha
        · exact ihV doc tl as has w hww

/-- Keys of a properties list, in order. -/
def plKeys : PropsList → List String
  | PropsList.nil => []
  | PropsList.cons k _ tl => k :: plKeys tl

lemma translate_no_top_optional (fuel : Nat) (doc : Doc)
    (s : Option Schema) (v : Validator)
    (h : translateF fuel doc s = some (Except.ok v)) :
    v.isOptional = false :=
  (translate_no_top_optional_aux fuel).1 doc s v h

lemma zodOptional_eq_ok {v a : Validator}
    (h : zodOptional v = Except.ok a) : a = Validator.optV v := by
  cases v <;> simp_all [zodOptional]

/-- Specification of the object-property loop: the produced shape has
exactly the property keys, in order, and a field is wrapped optional
exactly when its key is not in `required`. -/
lemma translateProps_spec (fuel : Nat) : ∀ (doc : Doc) (pl : PropsList)
    (req : List String) (flds : List (String × Validator)),
    translateProps fuel doc pl req = some (Except.ok flds) →
    flds.map Prod.fst = plKeys pl ∧
    ∀ kv ∈ flds, kv.2.isOptional = !(req.contains kv.1) := by
  induction fuel with
  | zero =>
    intro doc pl req flds h
    rw [show translateProps 0 doc pl req = none from rfl] at h
    exact Option.noConfusion h
  | succ f ih =>
    intro doc pl req flds h
    match pl with
    | PropsList.nil =>
      rw [show translateProps (f + 1) doc PropsList.nil req =
        some (Except.ok ([] : List (String × Validator))) from rfl] at h
      simp only [Option.some.injEq, Except.ok.injEq] at h
      subst h
      exact ⟨rfl, by simp⟩
    | PropsList.cons k s tl =>
      unfold translateProps at h
      obtain ⟨v, hv, hk⟩ := tbind_eq_ok h
      obtain ⟨fv, hfv, hk2⟩ := tbind_eq_ok hk
      obtain ⟨rest, hrest, hk3⟩ := tbind_eq_ok hk2
      simp only [Option.some.injEq, Except.ok.injEq] at hk3
      subst hk3
      simp only [Option.some.injEq] at hfv
      obtain ⟨hkeys, hopt⟩ := ih doc tl req rest hrest
      refine ⟨by simp [plKeys, hkeys], ?_⟩
      intro kv hkv
      rcases List.mem_cons.mp hkv with hh | hh
      · subst hh
        by_cases hreq : req.contains k = true
        · rw [if_pos hreq] at hfv
          simp only [Except.ok.injEq] at hfv
          subst hfv
          have hv0 := translate_no_top_optional f doc (some s) v hv
          rw [hreq]
          simpa using hv0
        · rw [if_neg hreq] at hfv
          have heq2 := zodOptional_eq_ok hfv
          subst heq2
          rw [show req.contains k = false by simpa using hreq]
          rfl
      · exact hopt kv hh

lemma lookupKey_cons {α : Type} (kv : String × α) (rest : List (String × α))
    (k : String) :
    lookupKey (kv :: rest) k =
    if (kv.1 == k) = true then some kv.2 else lookupKey rest k := by
  by_cases h : (kv.1 == k) = true
  · simp [lookupKey, List.find?_cons, h]
  · simp [lookupKey, List.find?_cons, h]

lemma lookup_map_set {α : Type} : ∀ (l : List (String × α)) (k : String)
    (v : α), l.any (fun kv => kv.1 == k) = true →
    lookupKey (l.map (fun kv => if kv.1 == k then (k, v) else kv)) k =
      some v := by
  intro l
  induction l with
  | nil => intro k v h; simp at h
  | cons kv rest ih =>
    intro k v h
    by_cases hk : kv.1 = k
    · simp only [List.map_cons]
      rw [lookupKey_cons]
      simp [hk]
    · simp only [List.map_cons,
        show (if (kv.1 == k) = true then (k, v) else kv) = kv from by
          simp [hk]]
      rw [lookupKey_cons]
      rw [if_neg (by simp [hk])]
      refine ih k v ?_
      simp only [List.any_cons, Bool.or_eq_true] at h
      rcases h with h | h
      · exact absurd (by simpa using h) hk
      · exact h

lemma lookup_append_single {α : Type} : ∀ (l : List (String × α))
    (k : String) (v : α),
    lookupKey l k = none → lookupKey (l ++ [(k, v)]) k = some v := by
  intro l
  induction l with
  | nil =>
    intro k v _
    rw [List.nil_append, lookupKey_cons]
    simp
  | cons kv rest ih =>
    intro k v h
    rw [lookupKey_cons] at h
    rw [List.cons_append, lookupKey_cons]
    by_cases hk : (kv.1 == k) = true
    · rw [if_pos hk] at h
      exact Option.noConfusion h
    · rw [if_neg hk] at h ⊢
      exact ih k v h

lemma any_key_false_lookup_none {α : Type} : ∀ (l : List (String × α))
    (k : String), l.any (fun kv => kv.1 == k) = false →
    lookupKey l k = none := by
  intro l
  induction l with
  | nil => intro k _; rfl
  | cons kv rest ih =>
    intro k h
    simp only [List.any_cons, Bool.or_eq_false_iff] at h
    rw [lookupKey_cons, if_neg (by simp [h.1])]
    exact ih k h.2

/-- `o[k] = v` makes `k` map to `v`. -/
lemma objSet_lookup_self {α : Type} (l : List (String × α)) (k : String)
    (v : α) : lookupKey (objSet l k v) k = some v := by
  unfold objSet
  split
  · next h => exact lookup_map_set l k v h
  · next h =>
      exact lookup_append_single l k v
        (any_key_false_lookup_none l k
          (by rw [Bool.not_eq_true] at h; exact h))

lemma lookup_map_set_other {α : Type} : ∀ (l : List (String × α))
    (k k' : String) (v : α), k' ≠ k →
    lookupKey (l.map (fun kv => if kv.1 == k then (k, v) else kv)) k' =
      lookupKey l k' := by
  intro l
  induction l with
  | nil => intro k k' v _; rfl
  | cons kv rest ih =>
    intro k k' v hne
    have hkk' : (k == k') = false := by
      simp only [beq_eq_false_iff_ne, ne_eq]
      exact fun hh => hne hh.symm
    by_cases hk : kv.1 = k
    · simp only [List.map_cons]
      rw [lookupKey_cons, lookupKey_cons]
      simp only [hk, beq_self_eq_true, if_true, hkk', Bool.false_eq_true,
        if_false]
      exact ih k k' v hne
    · simp only [List.map_cons,
        show (if (kv.1 == k) = true then (k, v) else kv) = kv from by
          simp [hk]]
      rw [lookupKey_cons, lookupKey_cons]
      by_cases hk' : (kv.1 == k') = true
      · rw [if_pos hk', if_pos hk']
      · rw [if_neg hk', if_neg hk']
        exact ih k k' v hne

lemma lookup_append_single_other {α : Type} : ∀ (l : List (String × α))
    (k k' : String) (v : α), k' ≠ k →
    lookupKey (l ++ [(k, v)]) k' = lookupKey l k' := by
  intro l
  induction l with
  | nil =>
    intro k k' v hne
    rw [List.nil_append, lookupKey_cons]
    rw [if_neg (by simp; exact fun hh => hne hh.symm)]
  | cons kv rest ih =>
    intro k k' v hne
    rw [List.cons_append, lookupKey_cons, lookupKey_cons]
    by_cases hk' : (kv.1 == k') = true
    · rw [if_pos hk', if_pos hk']
    · rw [if_neg hk', if_neg hk']
      exact ih k k' v hne

/-- `o[k] = v` does not change other keys. -/
lemma objSet_lookup_other {α : Type} (l : List (String × α))
    (k k' : String) (v : α) (h : k' ≠ k) :
    lookupKey (objSet l k v) k' = lookupKey l k' := by
  unfold objSet
  split
  · exact lookup_map_set_other l k k' v h
  · exact lookup_append_single_other l k k' v h

/-- An OpenAPI parameter as the tool-registration loop reads it:
`param.name`, `param.in` (modelled as `loc`), the JS truthiness of
`param.required`, and `param.schema`. -/
structure Param where
  name : String
  loc : String
  required : Bool
  schema : Option Schema

/-- A media-type object (`content["application/json"]` and friends). -/
structure Media where
  schema : Option Schema

/-- `op.requestBody.content`, restricted to the two media types the
source consults. -/
structure RequestBody where
  contentJson : Option Media
  contentVnd : Option Media

/-- `content?.["application/json"] || content?.["application/vnd.api+json"]`
(a present media object is truthy). -/
def RequestBody.content (rb : RequestBody) : Option Media :=
  match rb.contentJson with
  | some m => some m
  | none => rb.contentVnd

/-- `zodSchema instanceof z.ZodOptional ? zodSchema.unwrap() : zodSchema`. -/
def unwrapOptional (v : Validator) : Validator :=
  match v with
  | Validator.optV u => u
  | _ => v

/-- `ref.split("/").pop()!` with the `~1`/`~0` unescaping the source
applies (`decodeURIComponent` is not modelled). -/
def lastSegUnescape (r : String) : String :=
  match (splitSlashGo [] r.data).getLast? with
  | some seg => jsReplaceAll (jsReplaceAll seg "~1" "/") "~0" "~"
  | none => ""

/-- The fallback argument name for a non-object request body: the last
segment of the schema's `$ref` when that is truthy, else `"body"`. -/
def bodyArgName (sch : Schema) : String :=
  if jsStrTruthy sch.refOf then lastSegUnescape (sch.refOf.getD "")
  else "body"

/-- The path/query-parameter portion of the tool argument shape
(create-server.ts lines 283-297): parameters whose `in` is `path` or
`query` are translated and wrapped `.optional()` unless required, in
iteration order, assigned into the shape object. -/
def buildShapeParams (fuel : Nat) (doc : Doc) : List Param →
    List (String × Validator) →
    Option (Except Unit (List (String × Validator)))
  | [], shape => some (Except.ok shape)
  | p :: rest, shape =>
    if p.loc == "path" || p.loc == "query" then
      tbind (translateF fuel doc (some (p.schema.getD sNone))) (fun v =>
        tbind (some (if p.required then Except.ok v else zodOptional v))
          (fun v2 => buildShapeParams fuel doc rest (objSet shape p.name v2)))
    else buildShapeParams fuel doc rest shape

/-- The request-body schema the source would use, if any: present
`requestBody`, then the first of the two media types, then its schema. -/
def bodySchemaOf (rb : Option RequestBody) : Option Schema :=
  match rb with
  | none => none
  | some body =>
    match body.content with
    | none => none
    | some media => media.schema

/-- The request-body portion of the shape (lines 299-326): translate the
body schema; an object shape is splatted into the arguments
(`Object.assign`), anything else becomes a single optional argument named
after the schema's `$ref` tail or `body`. -/
def buildShapeBody (fuel : Nat) (doc : Doc) (sch : Schema)
    (shape0 : List (String × Validator)) :
    Option (Except Unit (List (String × Validator))) :=
  tbind (translateF fuel doc (some sch)) (fun v =>
    match unwrapOptional v with
    | Validator.objV flds => some (Except.ok (objAssign shape0 flds))
    | _ =>
      tbind (some (zodOptional v)) (fun vOpt =>
        some (Except.ok (objSet shape0 (bodyArgName sch) vOpt))))

/-- The full argument shape of one operation: path/query parameters from
the path item and the operation, then the request body. -/
def buildShape (fuel : Nat) (doc : Doc) (itemParams opParams : List Param)
    (rb : Option RequestBody) :
    Option (Except Unit (List (String × Validator))) :=
  tbind (buildShapeParams fuel doc (itemParams ++ opParams) [])
    (fun shape0 =>
      match bodySchemaOf rb with
      | none => some (Except.ok shape0)
      | some sch => buildShapeBody fuel doc sch shape0)

/-- A schema node `{ type: "object", properties: pl, required: req }`. -/
def objSchema (pl : PropsList) (req : Option (List String)) : Schema :=
  .mk none none none none none (some "object") none none none none none
      none none none none none none (some pl) req none

lemma translate_objSchema (f : Nat) (doc : Doc) (pl : PropsList)
    (req : Option (List String)) :
    translateF (f + 5) doc (some (objSchema pl req)) =
    tbind (translateProps f doc pl (req.getD [])) (fun flds =>
      some (Except.ok (Validator.objV flds))) := rfl

lemma objAssign_lookup_not_mem {α : Type} : ∀ (b a : List (String × α))
    (k : String), (∀ v0 : α, (k, v0) ∉ b) →
    lookupKey (objAssign a b) k = lookupKey a k := by
  intro b
  induction b with
  | nil => intro a k _; rfl
  | cons kv rest ih =>
    intro a k h
    have hne : k ≠ kv.1 := by
      intro hk
      exact h kv.2 (by rw [hk]; exact List.mem_cons_self _ _)
    have hstep : objAssign a (kv :: rest) =
        objAssign (objSet a kv.1 kv.2) rest := rfl
    rw [hstep, ih (objSet a kv.1 kv.2) k
      (fun v0 hv0 => h v0 (List.mem_cons_of_mem _ hv0))]
    exact objSet_lookup_other a kv.1 k kv.2 hne

lemma objAssign_lookup_of_mem {α : Type} : ∀ (b a : List (String × α))
    (k : String), (∃ v0 : α, (k, v0) ∈ b) →
    ∃ v, lookupKey (objAssign a b) k = some v ∧ (k, v) ∈ b := by
  intro b
  induction b with
  | nil =>
    intro a k h
    obtain ⟨v0, hv0⟩ := h
    exact absurd hv0 (List.not_mem_nil _)
  | cons kv rest ih =>
    intro a k h
    have hstep : objAssign a (kv :: rest) =
        objAssign (objSet a kv.1 kv.2) rest := rfl
    by_cases hrest : ∃ v0 : α, (k, v0) ∈ rest
    · obtain ⟨v, hv, hm⟩ := ih (objSet a kv.1 kv.2) k hrest
      exact ⟨v, by rw [hstep]; exact hv, List.mem_cons_of_mem _ hm⟩
    · obtain ⟨v0, hv0⟩ := h
      rcases List.mem_cons.mp hv0 with hh | hh
      · refine ⟨kv.2, ?_, ?_⟩
        · rw [hstep, objAssign_lookup_not_mem rest (objSet a kv.1 kv.2) k
            (fun w hw => hrest ⟨w, hw⟩)]
          have : kv.1 = k := by rw [← hh]
          rw [this]
          exact objSet_lookup_self a k kv.2
        · have : kv = (k, kv.2) := by rw [← hh]
          rw [← this]
          exact List.mem_cons_self _ _
      · exact absurd ⟨v0, hh⟩ hrest
    
/-- A schema node `{ type: "string" }`, used as a body property below. -/
def strFieldSchema : Schema :=
  .mk none none none none none (some "string") none none none none none
      none none none none none none none none none

/-- Claim C4 counterexample: a body field listed in the body schema's
`required` set is spliced into the argument shape unwrapped — not
optional.  For the body schema `{ type: "object", properties:
{ a: {type:"string"} }, required: ["a"] }` and no parameters, the
resulting shape maps `a` to a bare string validator with no
`.optional()` wrapper. -/
theorem body_required_field_spliced_non_optional :
    buildShape 20 [] [] []
      (some ⟨some ⟨some (objSchema
        (PropsList.cons "a" strFieldSchema PropsList.nil)
        (some ["a"]))⟩, none⟩) =
      some (Except.ok [("a", Validator.strV none none none)]) ∧
    (Validator.strV none none none).isOptional = false :=
  ⟨rfl, rfl⟩

/-- Claim C4, amended (corrected): for every operation whose request-body
schema is object-shaped, each spliced body field keeps the optionality
the body schema gives it — it is wrapped `.optional()` exactly when its
key is NOT in the body schema's `required` list (this code path applies
no blanket `.optional()`; the claim as stated fails whenever `required`
is nonempty, as the counterexample shows). -/
theorem spliced_body_fields_follow_required
    (fuel : Nat) (doc : Doc) (itemParams opParams : List Param)
    (pl : PropsList) (req : Option (List String)) (vnd : Option Media)
    (shape : List (String × Validator))
    (h : buildShape fuel doc itemParams opParams
      (some ⟨some ⟨some (objSchema pl req)⟩, vnd⟩) =
      some (Except.ok shape))
    (k : String) (hk : k ∈ plKeys pl) :
    ∃ v, lookupKey shape k = some v ∧
      v.isOptional = !((req.getD []).contains k) := by
  replace h : tbind (buildShapeParams fuel doc (itemParams ++ opParams) [])
      (fun shape0 => buildShapeBody fuel doc (objSchema pl req) shape0) =
      some (Except.ok shape) := h
  obtain ⟨shape0, hp, hb⟩ := tbind_eq_ok h
  replace hb : tbind (translateF fuel doc (some (objSchema pl req)))
      (fun v =>
        match unwrapOptional v with
        | Validator.objV flds =>
          some (Except.ok (objAssign shape0 flds))
        | _ =>
          tbind (some (zodOptional v)) (fun vOpt =>
            some (Except.ok
              (objSet shape0 (bodyArgName (objSchema pl req)) vOpt)))) =
      some (Except.ok shape) := hb
  obtain ⟨v, hv, hk2⟩ := tbind_eq_ok hb
  rcases fuel with _|_|_|_|_|f
  · exact Option.noConfusion ((show translateF 0 doc
      (some (objSchema pl req)) = none from rfl).symm.trans hv)
  · exact Option.noConfusion ((show translateF 1 doc
      (some (objSchema pl req)) = none from rfl).symm.trans hv)
  · exact Option.noConfusion ((show translateF 2 doc
      (some (objSchema pl req)) = none from rfl).symm.trans hv)
  · exact Option.noConfusion ((show translateF 3 doc
      (some (objSchema pl req)) = none from rfl).symm.trans hv)
  · exact Option.noConfusion ((show translateF 4 doc
      (some (objSchema pl req)) = none from rfl).symm.trans hv)
  replace hv : tbind (translateProps f doc pl (req.getD []))
      (fun flds => some (Except.ok (Validator.objV flds))) =
      some (Except.ok v) := hv
  obtain ⟨flds, hflds, hvv⟩ := tbind_eq_ok hv
  have hveq : v = Validator.objV flds :=
    (Except.ok.inj (Option.some.inj hvv)).symm
  rw [hveq] at hk2
  replace hk2 : some (Except.ok (objAssign shape0 flds)) =
      some (Except.ok shape) := hk2
  have hshape : shape = objAssign shape0 flds :=
    (Except.ok.inj (Option.some.inj hk2)).symm
  obtain ⟨hkeys, hopt⟩ := translateProps_spec f doc pl (req.getD []) flds hflds
  have hmem : ∃ v0, (k, v0) ∈ flds := by
    rw [← hkeys] at hk
    obtain ⟨kv, hkv, hfst⟩ := List.mem_map.mp hk
    exact ⟨kv.2, by rw [← hfst, Prod.mk.eta]; exact hkv⟩
  obtain ⟨v0, hl, hm⟩ := objAssign_lookup_of_mem flds shape0 k hmem
  refine ⟨v0, by rw [hshape]; exact hl, ?_⟩
  simpa using hopt (k, v0) hm

theorem spliced_body_fields_follow_required_witness :
    ∃ v, lookupKey [("b", Validator.optV (Validator.strV none none none))]
        "b" = some v ∧
      v.isOptional = !(((none : Option (List String))).getD []).contains "b" :=
  spliced_body_fields_follow_required 20 [] [] []
    (PropsList.cons "b" strFieldSchema PropsList.nil) none none
    [("b", Validator.optV (Validator.strV none none none))] rfl "b"
    (List.mem_singleton.mpr rfl)

/-- The decimal digit character for `n % 10` (JS template-literal
rendering of the counter). -/
def digitChar (n : Nat) : Char :=
  match n % 10 with
  | 0 => '0' | 1 => '1' | 2 => '2' | 3 => '3' | 4 => '4'
  | 5 => '5' | 6 => '6' | 7 => '7' | 8 => '8' | _ => '9'

/-- Numeric value of a decimal digit character. -/
def digitVal (c : Char) : Nat :=
  match c with
  | '0' => 0 | '1' => 1 | '2' => 2 | '3' => 3 | '4' => 4
  | '5' => 5 | '6' => 6 | '7' => 7 | '8' => 8 | _ => 9

/-- Fueled decimal printer (most significant digit first). -/
def natDigitsF : Nat → Nat → List Char
  | 0, _ => []
  | fuel + 1, n =>
    if n < 10 then [digitChar n]
    else natDigitsF fuel (n / 10) ++ [digitChar n]

/-- `String(n)`: the decimal rendering of a natural number. -/
def natToStr (n : Nat) : String := ⟨natDigitsF (n + 1) n⟩

/-- `${base}_${i}`: the collision-suffixed candidate name. -/
def suffixed (base : String) (i : Nat) : String :=
  base ++ "_" ++ natToStr i

/-- ECMAScript `\s` (the whitespace class of the `/\s+/g` replacement),
restricted to the code points that occur in practice. -/
def jsIsWs (c : Char) : Bool :=
  c = ' ' || c = '\t' || c = '\n' || c = '\r' ||
  c = Char.ofNat 11 || c = Char.ofNat 12 || c = Char.ofNat 160 ||
  c = Char.ofNat 65279

/-- `.replace(/\s+/g, "_")` over a character list: a maximal run of
whitespace becomes a single underscore.  The flag records whether the
previous character was inside a run. -/
def wsRunsGo : Bool → List Char → List Char
  | _, [] => []
  | inRun, c :: cs =>
    if jsIsWs c then
      (if inRun then [] else ['_']) ++ wsRunsGo true cs
    else c :: wsRunsGo false cs

/-- Does the character belong to `[a-z0-9_]` (the sanitizer keep-set)? -/
def isSafeChar (c : Char) : Bool :=
  ('a' ≤ c && c ≤ 'z') || ('0' ≤ c && c ≤ '9') || c = '_'

/-- The tool-name sanitizer of create-server.ts lines 249-254:
`operationId.replace(/[-]/g,"_").replace(/\s+/g,"_").toLowerCase()`
followed by `.replace(/[^a-z0-9_]/g,"_").substring(0,64)` (the first
regex is written `dash, g-flag` in the source). -/
def sanitizeToolName (opId : String) : String :=
  ⟨((((wsRunsGo false (opId.data.map
        (fun c => if c = '-' then '_' else c))).map
      Char.toLower).map
      (fun c => if isSafeChar c then c else '_')).take 64)⟩

/-- `Set.has` over the model of a registered-name set. -/
def hasName (l : List String) (x : String) : Bool :=
  l.any (fun y => y = x)

/-- The dedup `while` loop (lines 329-334): try `base_i`, `base_(i+1)`,
... until a name is not yet taken.  Fuel bounds the search; the caller
passes enough fuel for the loop to find a free suffix (proved below). -/
def firstFree (taken : List String) (base : String) : Nat → Nat → String
  | 0, i => suffixed base i
  | fuel + 1, i =>
    if hasName taken (suffixed base i) then
      firstFree taken base fuel (i + 1)
    else suffixed base i

/-- Name resolution against a registered-name set: the candidate itself
when unseen, else the first free `_i` suffix starting at `i = 2`. -/
def resolveName (taken : List String) (cand : String) : String :=
  if hasName taken cand then
    firstFree taken cand (taken.length + 1) 2
  else cand

/-- The two independent registered-name sets: `registeredToolNames` and
`registeredResourceNames`. -/
structure Registry where
  tools : List String
  resources : List String

/-- Register one tool name: resolve against the tool set only, then add
the resolved name to the tool set. -/
def registerTool (s : Registry) (cand : String) : String × Registry :=
  (resolveName s.tools cand,
   ⟨s.tools ++ [resolveName s.tools cand], s.resources⟩)

/-- Register one resource name: resolve against the resource set only,
then add the resolved name to the resource set. -/
def registerResource (s : Registry) (cand : String) : String × Registry :=
  (resolveName s.resources cand,
   ⟨s.tools, s.resources ++ [resolveName s.resources cand]⟩)

lemma hasName_iff (l : List String) (x : String) :
    hasName l x = true ↔ x ∈ l := by
  simp [hasName, List.any_eq_true]

lemma hasName_false_iff (l : List String) (x : String) :
    hasName l x = false ↔ x ∉ l := by
  rw [← Bool.not_eq_true, not_iff_not]
  exact hasName_iff l x

lemma digitVal_digitChar (n : Nat) : digitVal (digitChar n) = n % 10 := by
  have h : n % 10 < 10 := Nat.mod_lt _ (by norm_num)
  unfold digitChar
  rcases hm : n % 10 with _|_|_|_|_|_|_|_|_|_|k
  all_goals first
    | rfl
    | omega

/-- Value of a most-significant-first decimal digit string. -/
def digitsToNat (l : List Char) : Nat :=
  l.foldl (fun a c => a * 10 + digitVal c) 0

lemma digitsToNat_natDigitsF : ∀ fuel n, n < fuel →
    digitsToNat (natDigitsF fuel n) = n := by
  intro fuel
  induction fuel with
  | zero => intro n h; omega
  | succ f ih =>
    intro n h
    by_cases h10 : n < 10
    · rw [show natDigitsF (f + 1) n = [digitChar n] from by
        simp [natDigitsF, h10]]
      show 0 * 10 + digitVal (digitChar n) = n
      rw [digitVal_digitChar]
      omega
    · rw [show natDigitsF (f + 1) n =
        natDigitsF f (n / 10) ++ [digitChar n] from by simp [natDigitsF, h10]]
      rw [show digitsToNat (natDigitsF f (n / 10) ++ [digitChar n]) =
          digitsToNat (natDigitsF f (n / 10)) * 10 + digitVal (digitChar n)
        from by unfold digitsToNat; rw [List.foldl_append]; rfl]
      rw [ih (n / 10) (by omega), digitVal_digitChar]
      omega

lemma natToStr_data_inj {a b : Nat}
    (h : (natToStr a).data = (natToStr b).data) : a = b := by
  replace h : natDigitsF (a + 1) a = natDigitsF (b + 1) b := h
  have ha := digitsToNat_natDigitsF (a + 1) a (by omega)
  have hb := digitsToNat_natDigitsF (b + 1) b (by omega)
  rw [h] at ha
  omega

lemma string_data_append (s t : String) : (s ++ t).data = s.data ++ t.data :=
  rfl

lemma suffixed_data (base : String) (i : Nat) :
    (suffixed base i).data = base.data ++ '_' :: (natToStr i).data := by
  unfold suffixed
  rw [string_data_append, string_data_append, List.append_assoc]
  rfl

lemma suffixed_inj (base : String) {a b : Nat}
    (h : suffixed base a = suffixed base b) : a = b := by
  have hd : (suffixed base a).data = (suffixed base b).data := by rw [h]
  rw [suffixed_data, suffixed_data] at hd
  have h2 := List.append_cancel_left hd
  exact natToStr_data_inj (List.cons.inj h2).2

lemma suffixed_ne (base : String) (i : Nat) : suffixed base i ≠ base := by
  intro h
  have hd : (suffixed base i).data = base.data := by rw [h]
  rw [suffixed_data] at hd
  have := congrArg List.length hd
  simp [List.length_append] at this

lemma safe_digitChar (n : Nat) : isSafeChar (digitChar n) = true := by
  unfold digitChar
  rcases hm : n % 10 with _|_|_|_|_|_|_|_|_|_|k
  all_goals first
    | decide
    | rfl

lemma safe_natDigitsF : ∀ fuel n c, c ∈ natDigitsF fuel n →
    isSafeChar c = true := by
  intro fuel
  induction fuel with
  | zero => intro n c h; exact absurd h (List.not_mem_nil _)
  | succ f ih =>
    intro n c h
    by_cases h10 : n < 10
    · rw [show natDigitsF (f + 1) n = [digitChar n] from by
        simp [natDigitsF, h10]] at h
      rw [List.mem_singleton] at h
      rw [h]
      exact safe_digitChar n
    · rw [show natDigitsF (f + 1) n =
        natDigitsF f (n / 10) ++ [digitChar n] from by
          simp [natDigitsF, h10]] at h
      rcases List.mem_append.mp h with h1 | h1
      · exact ih _ _ h1
      · rw [List.mem_singleton] at h1
        rw [h1]
        exact safe_digitChar n

lemma safe_suffixed (base : String) (i : Nat)
    (hb : ∀ c ∈ base.data, isSafeChar c = true) :
    ∀ c ∈ (suffixed base i).data, isSafeChar c = true := by
  intro c hc
  rw [suffixed_data] at hc
  rcases List.mem_append.mp hc with h1 | h1
  · exact hb c h1
  · rcases List.mem_cons.mp h1 with h2 | h2
    · rw [h2]; decide
    · exact safe_natDigitsF (i + 1) i c h2

lemma firstFree_eq_suffixed (taken : List String) (base : String) :
    ∀ fuel i, ∃ j, i ≤ j ∧ firstFree taken base fuel i = suffixed base j := by
  intro fuel
  induction fuel with
  | zero => intro i; exact ⟨i, Nat.le_refl i, rfl⟩
  | succ f ih =>
    intro i
    by_cases hc : hasName taken (suffixed base i) = true
    · obtain ⟨j, hj, he⟩ := ih (i + 1)
      refine ⟨j, by omega, ?_⟩
      rw [show firstFree taken base (f + 1) i =
        firstFree taken base f (i + 1) from by simp [firstFree, hc]]
      exact he
    · exact ⟨i, Nat.le_refl i, by simp [firstFree, hc]⟩

lemma safe_resolveName (taken : List String) (cand : String)
    (hb : ∀ c ∈ cand.data, isSafeChar c = true) :
    ∀ c ∈ (resolveName taken cand).data, isSafeChar c = true := by
  unfold resolveName
  by_cases hc : hasName taken cand = true
  · rw [if_pos hc]
    obtain ⟨j, _, he⟩ := firstFree_eq_suffixed taken cand (taken.length + 1) 2
    rw [he]
    exact safe_suffixed cand j hb
  · rw [if_neg hc]
    exact hb

lemma safe_sanitizeToolName (opId : String) :
    ∀ c ∈ (sanitizeToolName opId).data, isSafeChar c = true := by
  intro c hc
  replace hc : c ∈ ((((wsRunsGo false (opId.data.map
        (fun c => if c = '-' then '_' else c))).map
      Char.toLower).map
      (fun c => if isSafeChar c then c else '_')).take 64) := hc
  have h2 := List.take_subset 64 _ hc
  obtain ⟨x, _, hx⟩ := List.mem_map.mp h2
  rw [← hx]
  by_cases hs : isSafeChar x = true
  · rw [if_pos hs]
    exact hs
  · rw [if_neg hs]
    decide

lemma sanitizeToolName_length_le (opId : String) :
    (sanitizeToolName opId).length ≤ 64 := by
  have h : (sanitizeToolName opId).length =
      (((((wsRunsGo false (opId.data.map
            (fun c => if c = '-' then '_' else c))).map
          Char.toLower).map
          (fun c => if isSafeChar c then c else '_')).take 64)).length := rfl
  rw [h, List.length_take]
  omega

lemma exists_free_suffix (taken : List String) (base : String) (i : Nat) :
    ∃ j, i ≤ j ∧ j < i + (taken.length + 1) ∧
      hasName taken (suffixed base j) = false := by
  by_contra hno
  push_neg at hno
  have hin : ∀ j ∈ Finset.Ico i (i + (taken.length + 1)),
      suffixed base j ∈ taken := by
    intro j hj
    rw [Finset.mem_Ico] at hj
    have h1 := hno j hj.1 hj.2
    have h2 : hasName taken (suffixed base j) = true := by
      cases hx : hasName taken (suffixed base j)
      · exact absurd hx h1
      · rfl
    exact (hasName_iff taken (suffixed base j)).mp h2
  have hcard : (Finset.Ico i (i + (taken.length + 1))).card ≤
      taken.toFinset.card := by
    apply Finset.card_le_card_of_injOn (fun j => suffixed base j)
    · intro j hj
      rw [List.mem_toFinset]
      exact hin j hj
    · intro a _ b _ hab
      exact suffixed_inj base hab
  rw [Nat.card_Ico] at hcard
  have h3 : taken.toFinset.card ≤ taken.length := taken.toFinset_card_le
  omega

lemma firstFree_spec (taken : List String) (base : String) :
    ∀ fuel i,
    (∃ j, i ≤ j ∧ j < i + fuel ∧ hasName taken (suffixed base j) = false) →
    ∃ j, i ≤ j ∧ firstFree taken base fuel i = suffixed base j ∧
      hasName taken (suffixed base j) = false ∧
      ∀ m, i ≤ m → m < j → hasName taken (suffixed base m) = true := by
  intro fuel
  induction fuel with
  | zero =>
    intro i h
    obtain ⟨j, h1, h2, _⟩ := h
    omega
  | succ f ih =>
    intro i h
    by_cases hc : hasName taken (suffixed base i) = true
    · have hstep : firstFree taken base (f + 1) i =
          firstFree taken base f (i + 1) := by simp [firstFree, hc]
      obtain ⟨j, h1, h2, h3⟩ := h
      have hji : j ≠ i := by
        intro he
        rw [he, hc] at h3
        exact Bool.noConfusion h3
      obtain ⟨j2, hj1, hj2, hj3, hj4⟩ :=
        ih (i + 1) ⟨j, by omega, by omega, h3⟩
      refine ⟨j2, by omega, by rw [hstep]; exact hj2, hj3, ?_⟩
      intro m hm1 hm2
      by_cases hmi : m = i
      · rw [hmi]
        exact hc
      · exact hj4 m (by omega) hm2
    · have hcf : hasName taken (suffixed base i) = false :=
        Bool.eq_false_iff.mpr hc
      refine ⟨i, Nat.le_refl i, by simp [firstFree, hcf], hcf, ?_⟩
      intro m hm1 hm2
      omega

lemma resolveName_not_taken (taken : List String) (cand : String)
    (hc : hasName taken cand = false) : resolveName taken cand = cand := by
  simp [resolveName, hc]

lemma resolveName_taken (taken : List String) (cand : String)
    (hc : hasName taken cand = true) :
    ∃ j, 2 ≤ j ∧ resolveName taken cand = suffixed cand j ∧
      hasName taken (suffixed cand j) = false ∧
      ∀ m, 2 ≤ m → m < j → hasName taken (suffixed cand m) = true := by
  obtain ⟨j, h1, h2, h3, h4⟩ :=
    firstFree_spec taken cand (taken.length + 1) 2
      (exists_free_suffix taken cand 2)
  refine ⟨j, h1, ?_, h3, h4⟩
  unfold resolveName
  rw [if_pos hc]
  exact h2

/-- A 70-character operationId (all letters, already lowercase). -/
def longOpId : String :=
  "aaaaaaaaaaaaaaaaaaaaaaaaaaaaaaaaaaaaaaaaaaaaaaaaaaaaaaaaaaaaaaaaaaaaaa"

/-- Claim C5 counterexample: the collision suffix is appended AFTER the
64-character truncation, so a suffixed registered name can exceed 64
characters.  Two operations sharing a 70-character operationId both
sanitize to the same 64-character name; the second registration
resolves to that name plus `_2`, 66 characters long. -/
theorem suffixed_tool_name_exceeds_64_chars :
    (resolveName [sanitizeToolName longOpId]
      (sanitizeToolName longOpId)).length = 66 ∧
    64 < (resolveName [sanitizeToolName longOpId]
      (sanitizeToolName longOpId)).length := by
  constructor
  · decide
  · decide

/-- Claim C5, amended (corrected): the sanitized candidate name is at
most 64 characters and every registered operation name — the candidate
or a collision-suffixed variant of it — consists only of characters from
[a-z0-9_]; the 64-character bound, however, holds only for unsuffixed
names, since the `_i` suffix is appended after truncation (the
counterexample shows a 66-character registered name). -/
theorem registered_tool_name_charset :
    (∀ opId : String, (sanitizeToolName opId).length ≤ 64) ∧
    (∀ (taken : List String) (opId : String),
      ∀ c ∈ (resolveName taken (sanitizeToolName opId)).data,
        isSafeChar c = true) := by
  refine ⟨sanitizeToolName_length_le, ?_⟩
  intro taken opId
  exact safe_resolveName taken (sanitizeToolName opId)
    (safe_sanitizeToolName opId)

theorem registered_tool_name_charset_witness :
    (sanitizeToolName "Get Flow-Sessions!").length ≤ 64 ∧
    isSafeChar 'g' = true :=
  ⟨registered_tool_name_charset.1 "Get Flow-Sessions!",
   registered_tool_name_charset.2 [] "Get Flow-Sessions!" 'g' (by decide)⟩

/-- Claim C6: name resolution is first-seen-wins with first-unused-suffix
collision handling, and the two namespaces are independent.  An unseen
candidate resolves to itself; a seen candidate resolves to `cand_j` for
the first unused suffix j ≥ 2 (every smaller suffix is taken); and for a
candidate fresh in both namespaces, registering it twice as a tool
yields the bare name then `cand_2`, while registering it as a resource
afterwards still yields the bare name. -/
theorem name_resolution_spec :
    (∀ (taken : List String) (cand : String),
      hasName taken cand = false → resolveName taken cand = cand) ∧
    (∀ (taken : List String) (cand : String),
      hasName taken cand = true →
      ∃ j, 2 ≤ j ∧ resolveName taken cand = suffixed cand j ∧
        hasName taken (suffixed cand j) = false ∧
        ∀ m, 2 ≤ m → m < j → hasName taken (suffixed cand m) = true) ∧
    (∀ (s : Registry) (cand : String),
      hasName s.tools cand = false →
      hasName s.tools (suffixed cand 2) = false →
      hasName s.resources cand = false →
      (registerTool s cand).1 = cand ∧
      (registerTool (registerTool s cand).2 cand).1 = suffixed cand 2 ∧
      (registerResource (registerTool s cand).2 cand).1 = cand) := by
  refine ⟨resolveName_not_taken, resolveName_taken, ?_⟩
  intro s cand h1 h2 h3
  have hn1 : (registerTool s cand).1 = cand := by
    show resolveName s.tools cand = cand
    exact resolveName_not_taken s.tools cand h1
  have htools : (registerTool s cand).2.tools = s.tools ++ [cand] := by
    show s.tools ++ [resolveName s.tools cand] = s.tools ++ [cand]
    rw [resolveName_not_taken s.tools cand h1]
  refine ⟨hn1, ?_, ?_⟩
  · show resolveName (registerTool s cand).2.tools cand = suffixed cand 2
    rw [htools]
    have hc : hasName (s.tools ++ [cand]) cand = true := by
      rw [hasName_iff]
      exact List.mem_append_right _ (List.mem_singleton.mpr rfl)
    obtain ⟨j, hj1, hj2, hj3, hj4⟩ :=
      resolveName_taken (s.tools ++ [cand]) cand hc
    have hfree2 : hasName (s.tools ++ [cand]) (suffixed cand 2) = false := by
      rw [hasName_false_iff]
      intro hmem
      rcases List.mem_append.mp hmem with hm | hm
      · rw [hasName_false_iff] at h2
        exact h2 hm
      · exact suffixed_ne cand 2 (List.mem_singleton.mp hm)
    have hj2eq : j = 2 := by
      by_contra hne
      have hlt : 2 < j := by omega
      have := hj4 2 (Nat.le_refl 2) hlt
      rw [hfree2] at this
      exact Bool.noConfusion this
    rw [hj2, hj2eq]
  · show resolveName (registerTool s cand).2.resources cand = cand
    exact resolveName_not_taken s.resources cand h3

theorem name_resolution_spec_witness :
    (registerTool ⟨[], []⟩ "x").1 = "x" ∧
    (registerTool (registerTool ⟨[], []⟩ "x").2 "x").1 = suffixed "x" 2 ∧
    (registerResource (registerTool ⟨[], []⟩ "x").2 "x").1 = "x" :=
  name_resolution_spec.2.2 ⟨[], []⟩ "x" rfl rfl rfl

/-- The token-bucket state of the `RateLimiter` class (part_004 lines
12-44): fractional tokens, the last-refill timestamp, the capacity
`maxTokens`, and `refillRate` in tokens per millisecond.  Real-valued
quantities are modelled as rationals. -/
structure RateLimiter where
  tokens : Rat
  lastRefill : Rat
  maxTokens : Rat
  refillRate : Rat

/-- `new RateLimiter(rps)`: full bucket, rate `rps / 1000` per ms. -/
def RateLimiter.init (rps now : Rat) : RateLimiter :=
  ⟨rps, now, rps, rps / 1000⟩

/-- `refill()`: `tokens = Math.min(maxTokens, tokens + delta * refillRate)`
with `delta = now - lastRefill`, then `lastRefill = now`. -/
def RateLimiter.refill (s : RateLimiter) (now : Rat) : RateLimiter :=
  { s with
    tokens := min s.maxTokens (s.tokens + (now - s.lastRefill) * s.refillRate),
    lastRefill := now }

/-- `wait()`: refill at time `now1`; if fewer than one token remains,
suspend for `(1 - tokens) / refillRate` ms and refill again, at time
`now2`; finally debit exactly one token.  The first component reports
the wait time requested from `setTimeout`, if any. -/
def RateLimiter.wait (s : RateLimiter) (now1 now2 : Rat) :
    Option Rat × RateLimiter :=
  if (s.refill now1).tokens < 1 then
    (some ((1 - (s.refill now1).tokens) / (s.refill now1).refillRate),
     { (s.refill now1).refill now2 with
        tokens := ((s.refill now1).refill now2).tokens - 1 })
  else
    (none, { s.refill now1 with tokens := (s.refill now1).tokens - 1 })

lemma wait_lt (s : RateLimiter) (now1 now2 : Rat)
    (h : (s.refill now1).tokens < 1) :
    s.wait now1 now2 =
      (some ((1 - (s.refill now1).tokens) / (s.refill now1).refillRate),
       { (s.refill now1).refill now2 with
          tokens := ((s.refill now1).refill now2).tokens - 1 }) := by
  unfold RateLimiter.wait
  rw [if_pos h]

lemma wait_ge (s : RateLimiter) (now1 now2 : Rat)
    (h : ¬ (s.refill now1).tokens < 1) :
    s.wait now1 now2 =
      (none, { s.refill now1 with tokens := (s.refill now1).tokens - 1 }) := by
  unfold RateLimiter.wait
  rw [if_neg h]

/-- Claim C7: with capacity at least one token, a positive refill rate,
a bucket in range, a monotone clock, and a timer that suspends at least
the requested time, the wait/refill formulas are exactly those of the
source, the bucket stays within `[0, maxTokens]` across an acquire, and
the acquire debits exactly one token from the (re)filled bucket. -/
theorem rate_limiter_acquire_spec
    (s : RateLimiter) (now1 now2 : Rat)
    (hmax : 1 ≤ s.maxTokens)
    (hrate : 0 < s.refillRate)
    (h0 : 0 ≤ s.tokens) (h1 : s.tokens ≤ s.maxTokens)
    (hclock1 : s.lastRefill ≤ now1)
    (hclock2 : now1 + (1 - (s.refill now1).tokens) / s.refillRate ≤ now2) :
    (∀ t : Rat, (s.refill t).tokens =
      min s.maxTokens (s.tokens + (t - s.lastRefill) * s.refillRate)) ∧
    (0 ≤ (s.wait now1 now2).2.tokens ∧
      (s.wait now1 now2).2.tokens ≤ (s.wait now1 now2).2.maxTokens) ∧
    (∀ w, (s.wait now1 now2).1 = some w →
      (s.refill now1).tokens < 1 ∧
      w = (1 - (s.refill now1).tokens) / s.refillRate ∧
      (s.wait now1 now2).2.tokens =
        ((s.refill now1).refill now2).tokens - 1) ∧
    ((s.wait now1 now2).1 = none →
      1 ≤ (s.refill now1).tokens ∧
      (s.wait now1 now2).2.tokens = (s.refill now1).tokens - 1) := by
  have ht1 : (s.refill now1).tokens =
      min s.maxTokens (s.tokens + (now1 - s.lastRefill) * s.refillRate) := rfl
  have ht1low : 0 ≤ (s.refill now1).tokens := by
    rw [ht1]
    apply le_min (by linarith)
    have : 0 ≤ (now1 - s.lastRefill) * s.refillRate :=
      mul_nonneg (by linarith) hrate.le
    linarith
  have ht1high : (s.refill now1).tokens ≤ s.maxTokens := by
    rw [ht1]
    exact min_le_left _ _
  by_cases hlt : (s.refill now1).tokens < 1
  · have hw := wait_lt s now1 now2 hlt
    have ht2 : ((s.refill now1).refill now2).tokens =
        min s.maxTokens
          ((s.refill now1).tokens + (now2 - now1) * s.refillRate) := rfl
    have hd2 : (1 - (s.refill now1).tokens) / s.refillRate ≤ now2 - now1 := by
      linarith
    have hmul : 1 - (s.refill now1).tokens ≤ (now2 - now1) * s.refillRate := by
      have := mul_le_mul_of_nonneg_right hd2 hrate.le
      rw [div_mul_cancel₀ _ (ne_of_gt hrate)] at this
      exact this
    have ht2ge : 1 ≤ ((s.refill now1).refill now2).tokens := by
      rw [ht2]
      exact le_min hmax (by linarith)
    have ht2le : ((s.refill now1).refill now2).tokens ≤ s.maxTokens := by
      rw [ht2]
      exact min_le_left _ _
    rw [hw]
    refine ⟨fun t => rfl, ⟨by show (0:Rat) ≤ _ - 1; linarith,
      by show _ - 1 ≤ s.maxTokens; linarith⟩, ?_, ?_⟩
    · intro w hwv
      have : (1 - (s.refill now1).tokens) / (s.refill now1).refillRate = w :=
        Option.some.inj hwv
      exact ⟨hlt, this.symm, rfl⟩
    · intro hnone
      exact Option.noConfusion hnone
  · have hw := wait_ge s now1 now2 hlt
    rw [hw]
    refine ⟨fun t => rfl, ⟨by show (0:Rat) ≤ _ - 1; linarith,
      by show _ - 1 ≤ s.maxTokens; linarith⟩, ?_, ?_⟩
    · intro w hwv
      exact Option.noConfusion hwv
    · intro _
      exact ⟨by linarith, rfl⟩

theorem rate_limiter_acquire_spec_witness :
    (∀ t : Rat, ((⟨5, 0, 5, 1⟩ : RateLimiter).refill t).tokens =
      min 5 (5 + (t - 0) * 1)) ∧
    (0 ≤ ((⟨5, 0, 5, 1⟩ : RateLimiter).wait 0 0).2.tokens ∧
      ((⟨5, 0, 5, 1⟩ : RateLimiter).wait 0 0).2.tokens ≤
        ((⟨5, 0, 5, 1⟩ : RateLimiter).wait 0 0).2.maxTokens) ∧
    (∀ w, ((⟨5, 0, 5, 1⟩ : RateLimiter).wait 0 0).1 = some w →
      (((⟨5, 0, 5, 1⟩ : RateLimiter)).refill 0).tokens < 1 ∧
      w = (1 - (((⟨5, 0, 5, 1⟩ : RateLimiter)).refill 0).tokens) / 1 ∧
      ((⟨5, 0, 5, 1⟩ : RateLimiter).wait 0 0).2.tokens =
        ((((⟨5, 0, 5, 1⟩ : RateLimiter)).refill 0).refill 0).tokens - 1) ∧
    (((⟨5, 0, 5, 1⟩ : RateLimiter).wait 0 0).1 = none →
      1 ≤ (((⟨5, 0, 5, 1⟩ : RateLimiter)).refill 0).tokens ∧
      ((⟨5, 0, 5, 1⟩ : RateLimiter).wait 0 0).2.tokens =
        (((⟨5, 0, 5, 1⟩ : RateLimiter)).refill 0).tokens - 1) :=
  rate_limiter_acquire_spec ⟨5, 0, 5, 1⟩ 0 0 (by norm_num) (by norm_num)
    (by norm_num) (by norm_num) (by norm_num)
    (by show (0:Rat) + (1 - min 5 (5 + (0 - 0) * 1)) / 1 ≤ 0; norm_num)

/-- JS truthiness of a JSON value. -/
def valTruthy : Val → Bool
  | .vNull => false
  | .vBool b => b
  | .vNum q => if q = 0 then false else true
  | .vStr s => if s = "" then false else true
  | .vArr _ => true
  | .vObj _ => true

/-- Truthiness of the destructured `error` field (absent is `undefined`,
hence falsy). -/
def errTruthy : Option Val → Bool
  | none => false
  | some v => valTruthy v

/-- Decimal rendering of an integer (template-literal interpolation). -/
def intToStr (i : Int) : String :=
  if i < 0 then "-" ++ natToStr i.natAbs else natToStr i.natAbs

/-- JSON escaping of one character: quote, backslash and the common
control characters; other code points are emitted verbatim. -/
def escChar (c : Char) : List Char :=
  if c = '"' then ['\\', '"']
  else if c = '\\' then ['\\', '\\']
  else if c = '\n' then ['\\', 'n']
  else if c = '\t' then ['\\', 't']
  else if c = '\r' then ['\\', 'r']
  else [c]

/-- A JSON string literal with its surrounding quotes. -/
def escString (s : String) : String :=
  ⟨'"' :: s.data.foldr (fun c acc => escChar c ++ acc) ['"']⟩

mutual

/-- `JSON.stringify` (compact) over the value model.  Numbers print via
their rational representation (exact for the integers that appear in
API error payloads); the pretty-printed success variant
`JSON.stringify(data, null, 2)` is modelled by the same compact
rendering, since no claim depends on whitespace. -/
def jsonStringify : Val → String
  | .vNull => "null"
  | .vBool b => if b then "true" else "false"
  | .vNum q => (if q.den = 1 then intToStr q.num
      else intToStr q.num ++ "/" ++ natToStr q.den)
  | .vStr s => escString s
  | .vArr l => "[" ++ stringifyArr l ++ "]"
  | .vObj l => "\x7b" ++ stringifyObj l ++ "\x7d"

def stringifyArr : VArr → String
  | .anil => ""
  | .acons v tl =>
    match tl with
    | .anil => jsonStringify v
    | _ => jsonStringify v ++ "," ++ stringifyArr tl

def stringifyObj : VObj → String
  | .onil => ""
  | .ocons k v tl =>
    match tl with
    | .onil => escString k ++ ":" ++ jsonStringify v
    | _ => escString k ++ ":" ++ jsonStringify v ++ "," ++ stringifyObj tl

end

/-- `typeof errorData === "string" ? errorData : JSON.stringify(errorData)`. -/
def errorMsg (errorData : Val) : String :=
  match errorData with
  | .vStr s => s
  | v => jsonStringify v

/-- `error || { message: "Unknown API Error" }` in the tool closure. -/
def toolErrorData (error : Option Val) : Val :=
  if errTruthy error then error.getD Val.vNull
  else Val.vObj (VObj.ocons "message" (Val.vStr "Unknown API Error") VObj.onil)

/-- `error || { title: "Not Found", detail: ... }` in the resource
closure. -/
def resourceErrorData (error : Option Val) : Val :=
  if errTruthy error then error.getD Val.vNull
  else Val.vObj (VObj.ocons "title" (Val.vStr "Not Found")
    (VObj.ocons "detail"
      (Val.vStr "The requested resource was not found on the server.")
      VObj.onil))

/-- Outcome of `await client[method](...)`: either the call threw (a
transport/network failure surfaces as an exception) or it returned the
destructured `{ data, error, response }`. -/
inductive ClientResult where
  | threw
  | returned (error : Option Val) (ok : Bool) (status : Int) (data : Val)

/-- What a tool invocation produces: a propagated exception
(`withMiddleware` catches only to log and re-throws), or a returned
payload with its `isError` flag, text, and internal `_errorCode` hint. -/
inductive ToolOutcome where
  | raised
  | soft (isErr : Bool) (text : String) (code : Option ErrorCode)

/-- What a resource read produces: a propagated non-MCP exception, a
thrown `McpError` with its mapped code, or a contents payload. -/
inductive ResourceOutcome where
  | raised
  | mcpRaised (code : ErrorCode) (msg : String)
  | contents (text : String)

/-- The tail of the tool closure (create-server.ts lines 401-436): on
`error || !response.ok`, return a soft result with `isError: true`, the
formatted message and the mapped code as an internal hint; otherwise
return the stringified data.  A thrown client call propagates. -/
def toolHandle (r : ClientResult) : ToolOutcome :=
  match r with
  | .threw => ToolOutcome.raised
  | .returned error ok status data =>
    if errTruthy error || !ok then
      ToolOutcome.soft true
        ("API Error (" ++ intToStr status ++ "): " ++
          errorMsg (toolErrorData error))
        (some (mapHttpStatusCodeToMcpError status))
    else
      ToolOutcome.soft false (jsonStringify data) none

/-- The tail of the resource-read closure (lines 185-220): on
`error || !response.ok`, `throw new McpError(mapHttpStatusCodeToMcpError
status, message)`; otherwise return the stringified data.  A thrown
client call propagates. -/
def resourceHandle (r : ClientResult) : ResourceOutcome :=
  match r with
  | .threw => ResourceOutcome.raised
  | .returned error ok status data =>
    if errTruthy error || !ok then
      ResourceOutcome.mcpRaised (mapHttpStatusCodeToMcpError status)
        ("API Error (" ++ intToStr status ++ "): " ++
          errorMsg (resourceErrorData error))
    else
      ResourceOutcome.contents (jsonStringify data)

/-- Claim C8 counterexample: a transport failure — the client call
throwing rather than returning — is NOT returned as a soft `isError`
result by the tool closure: nothing in the closure or in
`withMiddleware` (which re-throws after logging) catches it, so it
raises from tool and resource invocations alike. -/
theorem transport_failure_raises_from_tool :
    toolHandle ClientResult.threw = ToolOutcome.raised ∧
    resourceHandle ClientResult.threw = ResourceOutcome.raised :=
  ⟨rfl, rfl⟩

/-- Claim C8, amended (corrected): the asymmetry holds for API-level
failures, i.e. calls that RETURN with a truthy `error` or a non-ok
response: the tool closure returns a soft result marked `isError` with
the formatted message (and the mapped code only as an internal hint),
while the resource closure throws a structured `McpError` carrying the
mapped outcome category.  A transport failure that makes the client
call throw, however, raises from both closures (counterexample). -/
theorem error_handling_asymmetry_spec (error : Option Val) (ok : Bool)
    (status : Int) (data : Val)
    (hfail : (errTruthy error || !ok) = true) :
    toolHandle (ClientResult.returned error ok status data) =
      ToolOutcome.soft true
        ("API Error (" ++ intToStr status ++ "): " ++
          errorMsg (toolErrorData error))
        (some (mapHttpStatusCodeToMcpError status)) ∧
    resourceHandle (ClientResult.returned error ok status data) =
      ResourceOutcome.mcpRaised (mapHttpStatusCodeToMcpError status)
        ("API Error (" ++ intToStr status ++ "): " ++
          errorMsg (resourceErrorData error)) := by
  constructor
  · show (if errTruthy error || !ok then _ else _) = _
    rw [if_pos hfail]
  · show (if errTruthy error || !ok then _ else _) = _
    rw [if_pos hfail]

theorem error_handling_asymmetry_spec_witness :
    toolHandle (ClientResult.returned none false 404 Val.vNull) =
      ToolOutcome.soft true
        ("API Error (" ++ intToStr 404 ++ "): " ++
          errorMsg (toolErrorData none))
        (some (mapHttpStatusCodeToMcpError 404)) ∧
    resourceHandle (ClientResult.returned none false 404 Val.vNull) =
      ResourceOutcome.mcpRaised (mapHttpStatusCodeToMcpError 404)
        ("API Error (" ++ intToStr 404 ++ "): " ++
          errorMsg (resourceErrorData none)) :=
  error_handling_asymmetry_spec none false 404 Val.vNull (by decide)

/-- The left and right brace characters (written by code point). -/
def lbrace : Char := Char.ofNat 123

/-- `pathUrl.includes("\x7b")`. -/
def hasBrace (s : String) : Bool :=
  s.data.any (fun c => c = lbrace)

/-- The fields of an operation object that the registration phases
consult for filtering and naming. -/
structure Operation where
  tags : Option (List String)
  operationId : Option String

/-- A path item as `Object.entries(pathItem)` sees it: its keyed entries
in insertion order (`pathItem.get` is the entry with key "get"). -/
def PathItem := List (String × Operation)

/-- `posiflora://api${pathUrl}`. -/
def resourcePath (pathUrl : String) : String :=
  "posiflora://api" ++ pathUrl

/-- One iteration of the resource-registration loop (create-server.ts
lines 133-224) for one `(pathUrl, pathItem)` entry: if the path has a
GET operation and a template variable, and its resource URI is not yet
in the template set, a resource is registered — no tag check occurs.
Returns the updated template set and whether a resource was
registered. -/
def phaseRStep (templates : List String) (entry : String × PathItem) :
    List String × Bool :=
  match lookupKey entry.2 "get" with
  | none => (templates, false)
  | some _ =>
    if hasBrace entry.1 then
      if hasName templates (resourcePath entry.1) then (templates, false)
      else (templates ++ [resourcePath entry.1], true)
    else (templates, false)

/-- The allow-list filter of the tool loop (lines 235-244):
`enabledTags.length > 0` and no operation tag in the allow-list means
the operation is skipped. -/
def tagAllowed (enabledTags : List String) (op : Operation) : Bool :=
  if enabledTags.length = 0 then true
  else (op.tags.getD []).any (fun t => hasName enabledTags t)

/-- Whether the tool loop registers a tool for one `(method, op)` entry:
the non-operation keys are skipped, then the tag filter applies
(registration itself is unconditional after the filter). -/
def toolRegistered (enabledTags : List String) (method : String)
    (op : Operation) : Bool :=
  if hasName ["parameters", "summary", "description"] method then false
  else tagAllowed enabledTags op

/-- Claim C10: the tag allow-list is consulted only by the tool loop.
For a GET path whose URL contains a template variable and whose resource
URI is new, the resource loop registers a resource template even when
the allow-list is nonempty and disjoint from the operation's tags —
while the tool loop skips the very same GET operation. -/
theorem tag_filter_only_on_tools
    (templates : List String) (pathUrl : String) (pi : PathItem)
    (op : Operation) (enabledTags : List String)
    (hget : lookupKey pi "get" = some op)
    (hbrace : hasBrace pathUrl = true)
    (hnew : hasName templates (resourcePath pathUrl) = false)
    (hne : enabledTags ≠ [])
    (hdisj : (op.tags.getD []).any (fun t => hasName enabledTags t) = false) :
    (phaseRStep templates (pathUrl, pi)).2 = true ∧
    toolRegistered enabledTags "get" op = false := by
  constructor
  · have h1 : phaseRStep templates (pathUrl, pi) =
        (templates ++ [resourcePath pathUrl], true) := by
      unfold phaseRStep
      rw [show (pathUrl, pi).2 = pi from rfl, hget]
      rw [show (pathUrl, pi).1 = pathUrl from rfl, hbrace, hnew]
      rfl
    rw [h1]
  · unfold toolRegistered
    rw [if_neg (show ¬(hasName ["parameters", "summary", "description"]
      "get" = true) from by decide)]
    unfold tagAllowed
    rw [if_neg (fun h => hne (List.length_eq_zero.mp h))]
    exact hdisj

theorem tag_filter_only_on_tools_witness :
    (phaseRStep [] ("/v1/orders/\x7bid\x7d",
      [("get", ⟨some ["orders"], some "getOrder"⟩)])).2 = true ∧
    toolRegistered ["stores"] "get" ⟨some ["orders"], some "getOrder"⟩ =
      false :=
  tag_filter_only_on_tools [] "/v1/orders/\x7bid\x7d"
    [("get", ⟨some ["orders"], some "getOrder"⟩)]
    ⟨some ["orders"], some "getOrder"⟩ ["stores"]
    rfl (by decide) rfl (by decide) (by decide)

end Posiflora
